import Mathlib

/-!
Wire encoding helpers of the Firebird SQL driver (`utils.go`)

A shallow embedding of the byte-level encoders of `utils.go` together with
theorems about them.

Conventions of the embedding:

* a Go `byte` is a `Fin 256`; a `[]byte` and a Go `string` are lists of bytes;
* Go signed integers are modelled by `Int`; the conversions `byte(x)` and
  `int32(x)` are the explicit reductions `byte` and `toInt32`;
* on a signed integer `x >> k` is the floor division `x / 2 ^ k` and
  `x & 0xFF` is the non-negative remainder `x % 256` (two's complement);
* Go `/` and `%` on possibly negative `int`s truncate: `Int.tdiv`, `Int.tmod`;
* lengths (`len`) are natural numbers.
-/

namespace Firebirdsql

/-! ## Data model -/

/-- A Go `byte`. -/
abbrev Byte := Fin 256

/-- Go conversion `byte(x)`: the low eight bits of `x`. -/
def byte (x : Int) : Byte := ⟨(x % 256).toNat, by omega⟩

/-- Go conversion `int32(x)`: the low 32 bits of `x` read as a signed number. -/
def toInt32 (x : Int) : Int := (x + 2 ^ 31) % 2 ^ 32 - 2 ^ 31

/-- Go conversion `int16(x)`: the low 16 bits of `x` read as a signed number. -/
def toInt16 (x : Int) : Int := (x + 2 ^ 15) % 2 ^ 16 - 2 ^ 15

/-- Go conversion `int64(x)`: the low 64 bits of `x` read as a signed number. -/
def toInt64 (x : Int) : Int := (x + 2 ^ 63) % 2 ^ 64 - 2 ^ 63

/-- The calendar fields of a Go `time.Time` that the encoders read
(`Year`, `Month`, `Day`, `Hour`, `Minute`, `Second`, `Nanosecond`). -/
structure Time where
  year : Int
  month : Int
  day : Int
  hour : Int
  minute : Int
  second : Int
  nanosecond : Int
deriving DecidableEq, Repr

/-- A `driver.Value` as seen by the type switch of `paramsToBlr`.  A value of
any dynamic type not listed in the switch is represented by the bytes of its
`fmt.Sprintf("%v", f)` rendering, the only thing the encoder reads of it. -/
inductive Value where
  | string (f : List Byte)
  | int (f : Int)
  | int16 (f : Int)
  | int32 (f : Int)
  | int64 (f : Int)
  | time (f : Time)
  | bool (f : Bool)
  | nil
  | other (rendering : List Byte)
deriving DecidableEq, Repr

/-! ## Endian primitives -/

/-- Source: `str_to_bytes`. -/
def str_to_bytes (s : List Byte) : List Byte := s

/-- Source: `int32_to_bytes` (little endian). -/
def int32_to_bytes (i32 : Int) : List Byte :=
  [byte (i32 % 256), byte (i32 / 2 ^ 8 % 256), byte (i32 / 2 ^ 16 % 256),
   byte (i32 / 2 ^ 24 % 256)]

/-- Source: `bint32_to_bytes` (big endian). -/
def bint32_to_bytes (i32 : Int) : List Byte :=
  [byte (i32 / 2 ^ 24 % 256), byte (i32 / 2 ^ 16 % 256), byte (i32 / 2 ^ 8 % 256),
   byte (i32 % 256)]

/-- Source: `int16_to_bytes` (little endian). -/
def int16_to_bytes (i16 : Int) : List Byte :=
  [byte (i16 % 256), byte (i16 / 2 ^ 8 % 256)]

/-- Source: `bytes_to_str`. -/
def bytes_to_str (b : List Byte) : List Byte := b

/-- Source: `bytes_to_bint32`.  `binary.Read` fills the variable from the first
four bytes; on a short buffer it fails and the variable keeps its zero value. -/
def bytes_to_bint32 (b : List Byte) : Int :=
  match b with
  | b0 :: b1 :: b2 :: b3 :: _ =>
    toInt32 (b0.val * 2 ^ 24 + b1.val * 2 ^ 16 + b2.val * 2 ^ 8 + b3.val)
  | _ => 0

/-- Source: `bytes_to_int32`. -/
def bytes_to_int32 (b : List Byte) : Int :=
  match b with
  | b0 :: b1 :: b2 :: b3 :: _ =>
    toInt32 (b0.val + b1.val * 2 ^ 8 + b2.val * 2 ^ 16 + b3.val * 2 ^ 24)
  | _ => 0

/-- Source: `bytes_to_bint16`. -/
def bytes_to_bint16 (b : List Byte) : Int :=
  match b with
  | b0 :: b1 :: _ => toInt16 (b0.val * 2 ^ 8 + b1.val)
  | _ => 0

/-- Source: `bytes_to_int16`. -/
def bytes_to_int16 (b : List Byte) : Int :=
  match b with
  | b0 :: b1 :: _ => toInt16 (b0.val + b1.val * 2 ^ 8)
  | _ => 0

/-! ## Buffers -/

/-- The loop `for i, b := range src { buf[off+i] = b }`. -/
def copyAt (buf : List Byte) (off : Nat) : List Byte → List Byte
  | [] => buf
  | b :: rest => copyAt (buf.set off b) (off + 1) rest

/-- Go `make([]byte, n)`: `n` zero bytes. -/
def makeBytes (n : Nat) : List Byte := List.replicate n 0

/-- Go `bytes.Join(parts, nil)`. -/
def bytesJoin (parts : List (List Byte)) : List Byte := parts.flatten

/-- Source: `xdrBytes`. -/
def xdrBytes (bs : List Byte) : List Byte :=
  let n := bs.length
  let padding := if n % 4 ≠ 0 then 4 - n % 4 else 0
  let buf := makeBytes (4 + n + padding)
  let buf := buf.set 0 (byte ((n : Int) / 2 ^ 24 % 256))
  let buf := buf.set 1 (byte ((n : Int) / 2 ^ 16 % 256))
  let buf := buf.set 2 (byte ((n : Int) / 2 ^ 8 % 256))
  let buf := buf.set 3 (byte ((n : Int) % 256))
  copyAt buf 4 bs

/-- Source: `xdrString`. -/
def xdrString (s : List Byte) : List Byte :=
  let bs := s
  xdrBytes bs

/-- Source: `flattenBytes`.  The first loop sums the lengths, the second copies
every element at the running offset. -/
def flattenBytes (l : List (List Byte)) : List Byte :=
  let n := l.foldl (fun n e => n + e.length) 0
  let bs := makeBytes n
  (l.foldl (fun (st : List Byte × Nat) e => (copyAt st.1 st.2 e, st.2 + e.length))
    (bs, 0)).1

/-! ## Scalar encoders -/

/-- Source: `_int32ToBlr`. -/
def _int32ToBlr (i32 : Int) : List Byte × List Byte :=
  let v := bytesJoin [bint32_to_bytes i32]
  let blr : List Byte := [8, 0]
  (blr, v)

/-- Source: `_strToBlr`.  `(4 - nbytes) & 3` on a two's complement integer is
the non-negative remainder modulo 4. -/
def _strToBlr (s : List Byte) : List Byte × List Byte :=
  let v := str_to_bytes s
  let nbytes : Int := v.length
  let pad_length := (4 - nbytes) % 4
  let padding := makeBytes pad_length.toNat
  let v := bytesJoin [v, padding]
  let blr : List Byte := [14, byte (nbytes % 256), byte (nbytes / 2 ^ 8)]
  (blr, v)

/-- The integer `j` computed by `_convert_date` before the narrowing. -/
def _convert_date_j (t : Time) : Int :=
  let i := t.month + 9
  let jy := t.year + Int.tdiv i 12 - 1
  let jm := Int.tmod i 12
  let c := Int.tdiv jy 100
  let jy := jy - 100 * c
  Int.tdiv (146097 * c) 4 + Int.tdiv (1461 * jy) 4 + Int.tdiv (153 * jm + 2) 5
    + t.day - 678882

/-- Source: `_convert_date`. -/
def _convert_date (t : Time) : List Byte :=
  bint32_to_bytes (toInt32 (_convert_date_j t))

/-- The integer `v` computed by `_convert_time` before the narrowing. -/
def _convert_time_v (t : Time) : Int :=
  (t.hour * 3600 + t.minute * 60 + t.second) * 10000 + Int.tdiv t.nanosecond 100000

/-- Source: `_convert_time`. -/
def _convert_time (t : Time) : List Byte :=
  bint32_to_bytes (toInt32 (_convert_time_v t))

/-- Source: `_dateToBlr`. -/
def _dateToBlr (t : Time) : List Byte × List Byte :=
  let v := bytesJoin [_convert_date t]
  let blr : List Byte := [12]
  (blr, v)

/-- Source: `_timeToBlr`. -/
def _timeToBlr (t : Time) : List Byte × List Byte :=
  let v := bytesJoin [_convert_time t]
  let blr : List Byte := [13]
  (blr, v)

/-- Source: `_timestampToBlr`. -/
def _timestampToBlr (t : Time) : List Byte × List Byte :=
  let v := bytesJoin [_convert_date t, _convert_time t]
  let blr : List Byte := [35]
  (blr, v)

/-! ## Parameter batch encoder -/

/-- The type switch in the loop body of `paramsToBlr`: the pair `(blr, v)` it
assigns for the parameter `p`. -/
def encodeParam (p : Value) : List Byte × List Byte :=
  match p with
  | Value.string f => _strToBlr f
  | Value.int f => _int32ToBlr (toInt32 f)
  | Value.int16 f => _int32ToBlr (toInt32 f)
  | Value.int32 f => _int32ToBlr f
  | Value.int64 f => _int32ToBlr (toInt32 f)
  | Value.time f => if f.year = 0 then _timeToBlr f else _timestampToBlr f
  | Value.bool f => ([23], if f then [1, 0, 0, 0] else [0, 0, 0, 0])
  | Value.nil => ([14, 0, 0], [])
  | Value.other rendering => _strToBlr rendering

/-- The loop `for i := len(params) - 1; i > 0; i--` of `paramsToBlr`, entered
with counter `i` and big integer `null_indicator`: `SetBit(null_indicator, i, 1)`
for every nil `params[i]`. -/
def setNullBits (params : List Value) : Nat → Nat → Nat
  | 0, null_indicator => null_indicator
  | i + 1, null_indicator =>
    setNullBits params i
      (if params[i + 1]? = some Value.nil then null_indicator ||| (1 <<< (i + 1))
       else null_indicator)

/-- The number `n` of bitmap bytes computed by `paramsToBlr`. -/
def bitmapLen (len : Nat) : Nat :=
  let n := len / 8
  let n := if len % 8 ≠ 0 then n + 1 else n
  if n % 4 ≠ 0 then n + (4 - n % 4) else n

/-- The loop `for i := 0; i < n; i++` of `paramsToBlr` with `k` passes left.
`null_indicator.Mod(null_indicator, bi256)` stores the remainder in its
receiver, which is `null_indicator` itself, and returns it; the byte pushed is
that remainder, and the following `Div` divides the stored remainder. -/
def extractBitmap : Nat → Nat → List (List Byte) → List (List Byte)
  | 0, _, valuesList => valuesList
  | k + 1, null_indicator, valuesList =>
    let null_indicator := null_indicator % 256
    let valuesList := valuesList ++ [[byte null_indicator]]
    let null_indicator := null_indicator / 256
    extractBitmap k null_indicator valuesList

/-- One pass of the loop `for _, p := range params` of `paramsToBlr` on the
pair `(blrList, valuesList)`. -/
def paramStep (PROTOCOL_VERSION13 protocolVersion : Int)
    (st : List (List Byte) × List (List Byte)) (p : Value) :
    List (List Byte) × List (List Byte) :=
  let (blr, v) := encodeParam p
  let valuesList := st.2 ++ [v]
  let valuesList :=
    if protocolVersion < PROTOCOL_VERSION13 then
      if p = Value.nil then valuesList ++ [[0xff, 0xff, 0xff, 0xff]]
      else valuesList ++ [[0, 0, 0, 0]]
    else valuesList
  let blrList := st.1 ++ [blr]
  let blrList := blrList ++ [[7, 0]]
  (blrList, valuesList)

/-- Source: `paramsToBlr`.  The constant `PROTOCOL_VERSION13` is declared
outside `utils.go` and is a parameter here. -/
def paramsToBlr (PROTOCOL_VERSION13 : Int) (params : List Value) (protocolVersion : Int) :
    List Byte × List Byte :=
  let ln : Int := params.length * 2
  let blrList : List (List Byte) := [[5, 2, 4, 0, byte (ln % 256), byte (ln / 2 ^ 8)]]
  let valuesList : List (List Byte) :=
    if protocolVersion ≥ PROTOCOL_VERSION13 then
      let null_indicator := setNullBits params (params.length - 1) 0
      extractBitmap (bitmapLen params.length) null_indicator []
    else []
  let (blrList, valuesList) :=
    params.foldl (paramStep PROTOCOL_VERSION13 protocolVersion) (blrList, valuesList)
  let blrList := blrList ++ [[255, 76]]
  (flattenBytes blrList, flattenBytes valuesList)


/-! ## Indexed stores with range checks

Go panics on an indexed store or a slice expression that is out of range; in
the following definitions `none` stands for such a panic. -/

/-- The Go store `buf[i] = v`. -/
def storeByte (buf : List Byte) (i : Nat) (v : Byte) : Option (List Byte) :=
  if i < buf.length then some (buf.set i v) else none

/-- The consecutive Go stores `buf[off] = v0; buf[off+1] = v1; ...`. -/
def storeBytes (buf : List Byte) (off : Nat) : List Byte → Option (List Byte)
  | [] => some buf
  | v :: rest => (storeByte buf off v).bind fun buf => storeBytes buf (off + 1) rest

/-- The Go slice expression `buf[:n]`. -/
def sliceTo (buf : List Byte) (n : Nat) : Option (List Byte) :=
  if n ≤ buf.length then some (buf.take n) else none

/-- Source: `flattenBytes`, with every store `bs[n+i] = b` checked. -/
def flattenBytesChecked (l : List (List Byte)) : Option (List Byte) :=
  let n := l.foldl (fun n e => n + e.length) 0
  let bs := makeBytes n
  (l.foldlM (fun (st : List Byte × Nat) e =>
      (storeBytes st.1 st.2 e).map fun bs => (bs, st.2 + e.length)) (bs, 0)).map
    fun st => st.1

/-- The loop `for i := len(params) - 1; i > 0; i--` of `paramsToBlr` with the
access `params[i]` checked. -/
def setNullBitsChecked (params : List Value) : Nat → Nat → Option Nat
  | 0, null_indicator => some null_indicator
  | i + 1, null_indicator =>
    match params[i + 1]? with
    | none => none
    | some p =>
      setNullBitsChecked params i
        (if p = Value.nil then null_indicator ||| (1 <<< (i + 1)) else null_indicator)

/-- Source: `paramsToBlr`, with every indexed access checked.  The constant
`PROTOCOL_VERSION13` is declared outside `utils.go` and is a parameter here. -/
def paramsToBlrChecked (PROTOCOL_VERSION13 : Int) (params : List Value)
    (protocolVersion : Int) : Option (List Byte × List Byte) :=
  let ln : Int := params.length * 2
  let blrList : List (List Byte) := [[5, 2, 4, 0, byte (ln % 256), byte (ln / 2 ^ 8)]]
  let bitmap : Option (List (List Byte)) :=
    if protocolVersion ≥ PROTOCOL_VERSION13 then
      (setNullBitsChecked params (params.length - 1) 0).map fun null_indicator =>
        extractBitmap (bitmapLen params.length) null_indicator []
    else some []
  bitmap.bind fun valuesList =>
    let (blrList, valuesList) :=
      params.foldl (paramStep PROTOCOL_VERSION13 protocolVersion) (blrList, valuesList)
    let blrList := blrList ++ [[255, 76]]
    (flattenBytesChecked blrList).bind fun blr =>
      (flattenBytesChecked valuesList).map fun v => (blr, v)

/-! ## Column descriptor encoder -/

/-- Modelled from the spec: the type tag of a column descriptor.  The
`SQL_TYPE_*` constants are declared outside `utils.go`; as the case labels of
one `switch` they are pairwise distinct, so a tag is exactly one of them or
none of them (`unknown`). -/
inductive SqlType where
  | SQL_TYPE_VARYING
  | SQL_TYPE_TEXT
  | SQL_TYPE_LONG
  | SQL_TYPE_SHORT
  | SQL_TYPE_INT64
  | SQL_TYPE_QUAD
  | SQL_TYPE_BLOB
  | SQL_TYPE_ARRAY
  | SQL_TYPE_DOUBLE
  | SQL_TYPE_FLOAT
  | SQL_TYPE_D_FLOAT
  | SQL_TYPE_DATE
  | SQL_TYPE_TIME
  | SQL_TYPE_TIMESTAMP
  | SQL_TYPE_BOOLEAN
  | unknown
deriving DecidableEq, Repr

/-- Modelled from the spec: the column descriptor `xSQLVAR`, declared outside
`utils.go`, with the three fields that `calcBlr` reads: the type tag, the
declared length in bytes and the scale. -/
structure xSQLVAR where
  sqltype : SqlType
  sqllen : Int
  sqlscale : Int
deriving DecidableEq, Repr

/-- The bytes that the `switch x.sqltype` of `calcBlr` stores from position `n`
on for the descriptor `x`, where `sqlscale` is the local variable of that name;
`n` then advances by their number. -/
def typeBytes (x : xSQLVAR) (sqlscale : Int) : List Byte :=
  match x.sqltype with
  | SqlType.SQL_TYPE_VARYING => [37, byte (x.sqllen % 256), byte (x.sqllen / 2 ^ 8)]
  | SqlType.SQL_TYPE_TEXT => [14, byte (x.sqllen % 256), byte (x.sqllen / 2 ^ 8)]
  | SqlType.SQL_TYPE_LONG => [8, byte sqlscale]
  | SqlType.SQL_TYPE_SHORT => [7, byte sqlscale]
  | SqlType.SQL_TYPE_INT64 => [16, byte sqlscale]
  | SqlType.SQL_TYPE_QUAD => [9, byte sqlscale]
  | SqlType.SQL_TYPE_BLOB => [9, 0]
  | SqlType.SQL_TYPE_ARRAY => [9, 0]
  | SqlType.SQL_TYPE_DOUBLE => [27]
  | SqlType.SQL_TYPE_FLOAT => [10]
  | SqlType.SQL_TYPE_D_FLOAT => [11]
  | SqlType.SQL_TYPE_DATE => [12]
  | SqlType.SQL_TYPE_TIME => [13]
  | SqlType.SQL_TYPE_TIMESTAMP => [35]
  | SqlType.SQL_TYPE_BOOLEAN => [23]
  | SqlType.unknown => []

/-- One pass of the loop `for _, x := range xsqlda` of `calcBlr` on the pair
`(blr, n)`. -/
def calcBlrStep (st : List Byte × Nat) (x : xSQLVAR) : Option (List Byte × Nat) :=
  let blr := st.1
  let n := st.2
  let sqlscale := if x.sqlscale < 0 then x.sqlscale + 256 else x.sqlscale
  (storeBytes blr n (typeBytes x sqlscale)).bind fun blr =>
    let n := n + (typeBytes x sqlscale).length
    (storeBytes blr n [7, 0]).map fun blr => (blr, n + 2)

/-- Source: `calcBlr` up to the final slice expression: the buffer `blr` and the
position `n` reached after the end marker is stored. -/
def calcBlrRun (xsqlda : List xSQLVAR) : Option (List Byte × Nat) :=
  let ln := xsqlda.length * 2
  let blr := makeBytes ((ln * 4) + 8)
  (storeBytes blr 0 [5, 2, 4, 0, byte ((ln : Int) % 256), byte ((ln : Int) / 2 ^ 8)]).bind
    fun blr =>
      let n := 6
      (xsqlda.foldlM calcBlrStep (blr, n)).bind fun st =>
        (storeBytes st.1 st.2 [255, 76]).map fun blr => (blr, st.2 + 2)

/-- Source: `calcBlr`. -/
def calcBlr (xsqlda : List xSQLVAR) : Option (List Byte) :=
  (calcBlrRun xsqlda).bind fun st => sliceTo st.1 st.2
/-! ## Reference definitions

Definitions that follow the wording of the specification rather than the
code; the theorems below compare the encoders with them. -/

/-- Specification side: the number denoted by a byte sequence read big endian. -/
def bigEndianValue (bs : List Byte) : Nat :=
  bs.foldl (fun acc b => acc * 256 + b.val) 0

/-- Specification side: the direct construction of the null bitmap as numbers,
`bitmap[i/8] |= 1 << (i%8)` over the nil indices `i > 0`, on a zeroed array of
`bitmapLen` bytes. -/
def directBitmap (params : List Value) : List Nat :=
  (List.range params.length).foldl
    (fun bitmap i =>
      if 0 < i ∧ params[i]? = some Value.nil then
        bitmap.modify (fun b => b ||| (1 <<< (i % 8))) (i / 8)
      else bitmap)
    (List.replicate (bitmapLen params.length) 0)

/-- Specification side: Gregorian leap years. -/
def isLeapYear (y : Nat) : Bool :=
  y % 4 = 0 ∧ (y % 100 ≠ 0 ∨ y % 400 = 0)

/-- Specification side: the number of days of year `y`. -/
def daysInYear (y : Nat) : Nat := if isLeapYear y then 366 else 365

/-- Specification side: the number of days of month `m` of year `y`. -/
def daysInMonth (y : Nat) (m : Nat) : Nat :=
  if m = 2 then (if isLeapYear y then 29 else 28)
  else if m = 4 ∨ m = 6 ∨ m = 9 ∨ m = 11 then 30
  else 31

/-- Specification side: the number of days in the years `1, ..., k`. -/
def daysUpToYear : Nat → Nat
  | 0 => 0
  | k + 1 => daysUpToYear k + daysInYear (k + 1)

/-- Specification side: the number of days in the months `1, ..., k` of year `y`. -/
def daysUpToMonth (y : Nat) : Nat → Nat
  | 0 => 0
  | k + 1 => daysUpToMonth y k + daysInMonth y (k + 1)

/-- Specification side: the ordinal of a calendar day, counting 0001-01-01 as
day 1, by adding up whole years, whole months and the day of the month. -/
def dayNumber (y m d : Nat) : Nat :=
  daysUpToYear (y - 1) + daysUpToMonth y (m - 1) + d

/-- Specification side: the modified Julian day number, the days elapsed since
1858-11-17. -/
def modifiedJulianDay (t : Time) : Int :=
  (dayNumber t.year.toNat t.month.toNat t.day.toNat : Int) - (dayNumber 1858 11 17 : Int)

/-- Specification side: a day of the proleptic Gregorian calendar in a year
from 1 on. -/
def validDate (t : Time) : Prop :=
  1 ≤ t.year ∧ 1 ≤ t.month ∧ t.month ≤ 12 ∧ 1 ≤ t.day ∧
    t.day ≤ daysInMonth t.year.toNat t.month.toNat

instance (t : Time) : Decidable (validDate t) := by
  unfold validDate; infer_instance

/-- Specification side: the calendar day after `t`, at the same time of day. -/
def nextDay (t : Time) : Time :=
  if t.day < daysInMonth t.year.toNat t.month.toNat then { t with day := t.day + 1 }
  else if t.month < 12 then { t with month := t.month + 1, day := 1 }
  else { t with year := t.year + 1, month := 1, day := 1 }

/-- Specification side: a time of day with all components in their normal
ranges. -/
def validTimeOfDay (t : Time) : Prop :=
  0 ≤ t.hour ∧ t.hour ≤ 23 ∧ 0 ≤ t.minute ∧ t.minute ≤ 59 ∧ 0 ≤ t.second ∧ t.second ≤ 59 ∧
    0 ≤ t.nanosecond ∧ t.nanosecond ≤ 999999999

instance (t : Time) : Decidable (validTimeOfDay t) := by
  unfold validTimeOfDay; infer_instance

/-- Specification side: the nanoseconds elapsed since midnight. -/
def nanosOfDay (t : Time) : Int :=
  ((t.hour * 60 + t.minute) * 60 + t.second) * 1000000000 + t.nanosecond


/-- The bytes that one pass of the loop of `calcBlr` stores for the descriptor
`x`: the bytes of the `switch` followed by `[7, 0]`. -/
def descriptorBytes (x : xSQLVAR) : List Byte :=
  typeBytes x (if x.sqlscale < 0 then x.sqlscale + 256 else x.sqlscale) ++ [7, 0]

/-- Specification side: the fragment of a column descriptor as numbers, with
the third number of a VARYING or TEXT fragment given as `sqllen div 256`. -/
def statedFragment (x : xSQLVAR) : List Int :=
  match x.sqltype with
  | SqlType.SQL_TYPE_VARYING => [37, x.sqllen % 256, x.sqllen / 256]
  | SqlType.SQL_TYPE_TEXT => [14, x.sqllen % 256, x.sqllen / 256]
  | SqlType.SQL_TYPE_LONG => [8, x.sqlscale % 256]
  | SqlType.SQL_TYPE_SHORT => [7, x.sqlscale % 256]
  | SqlType.SQL_TYPE_INT64 => [16, x.sqlscale % 256]
  | SqlType.SQL_TYPE_QUAD => [9, x.sqlscale % 256]
  | SqlType.SQL_TYPE_BLOB => [9, 0]
  | SqlType.SQL_TYPE_ARRAY => [9, 0]
  | SqlType.SQL_TYPE_DOUBLE => [27]
  | SqlType.SQL_TYPE_FLOAT => [10]
  | SqlType.SQL_TYPE_D_FLOAT => [11]
  | SqlType.SQL_TYPE_DATE => [12]
  | SqlType.SQL_TYPE_TIME => [13]
  | SqlType.SQL_TYPE_TIMESTAMP => [35]
  | SqlType.SQL_TYPE_BOOLEAN => [23]
  | SqlType.unknown => []

/-- Specification side: the fragment of a column descriptor as numbers, with
the third number of a VARYING or TEXT fragment reduced modulo 256. -/
def fragmentValues (x : xSQLVAR) : List Int :=
  match x.sqltype with
  | SqlType.SQL_TYPE_VARYING => [37, x.sqllen % 256, x.sqllen / 256 % 256]
  | SqlType.SQL_TYPE_TEXT => [14, x.sqllen % 256, x.sqllen / 256 % 256]
  | _ => statedFragment x

/-- The numbers held by a byte sequence. -/
def byteValues (bs : List Byte) : List Int := bs.map fun b => (b.val : Int)

/-- Specification side: bit `i` of a bitmap, that is bit `i mod 8` of byte
`i div 8`; a byte outside the bitmap has no bit set. -/
def bitmapBit (bitmap : List Byte) (i : Nat) : Bool :=
  match bitmap[i / 8]? with
  | some b => b.val.testBit (i % 8)
  | none => false

/-- The null bitmap that `paramsToBlr` puts in front of the value buffer at a
protocol version of at least `PROTOCOL_VERSION13`. -/
def nullBitmap (params : List Value) : List Byte :=
  (extractBitmap (bitmapLen params.length) (setNullBits params (params.length - 1) 0) []).flatten

theorem copyAt_window (e : List Byte) :
    ∀ (pre mid post : List Byte), mid.length = e.length →
      copyAt (pre ++ mid ++ post) pre.length e = pre ++ e ++ post := by
  induction e with
  | nil =>
    intro pre mid post h
    have hm : mid = [] := List.length_eq_zero.mp (by simpa using h)
    simp [copyAt, hm]
  | cons b rest ih =>
    intro pre mid post h
    cases mid with
    | nil => simp at h
    | cons m mid1 =>
      have hset : (pre ++ m :: mid1 ++ post).set pre.length b
          = (pre ++ [b]) ++ mid1 ++ post := by
        simp [List.set_append]
      have hlen : (pre ++ [b]).length = pre.length + 1 := by simp
      rw [copyAt, hset, ← hlen, ih (pre ++ [b]) mid1 post (by simpa using h)]
      simp

theorem sumLengths_foldl (l : List (List Byte)) (a : Nat) :
    l.foldl (fun n e => n + e.length) a = a + (l.map List.length).sum := by
  induction l generalizing a with
  | nil => simp
  | cons e l ih => simp [ih]; omega

theorem flattenLoop_eq (l : List (List Byte)) :
    ∀ (pre : List Byte) (r : Nat),
      l.foldl (fun (st : List Byte × Nat) e => (copyAt st.1 st.2 e, st.2 + e.length))
        (pre ++ List.replicate ((l.map List.length).sum + r) 0, pre.length)
      = (pre ++ l.flatten ++ List.replicate r 0, pre.length + (l.map List.length).sum) := by
  induction l with
  | nil => intro pre r; simp
  | cons e l ih =>
    intro pre r
    have hsplit : List.replicate (((e :: l).map List.length).sum + r) (0 : Byte)
        = List.replicate e.length 0 ++ List.replicate ((l.map List.length).sum + r) 0 := by
      rw [← List.replicate_add]; congr 1; simp; omega
    have hcopy := copyAt_window e pre (List.replicate e.length 0)
      (List.replicate ((l.map List.length).sum + r) 0) (by simp)
    rw [List.foldl_cons]
    simp only [hsplit, ← List.append_assoc, hcopy]
    have hlen : pre.length + e.length = (pre ++ e).length := by simp
    rw [hlen, ih (pre ++ e) r]
    simp; omega

theorem flattenBytes_eq (l : List (List Byte)) : flattenBytes l = l.flatten := by
  have h := flattenLoop_eq l [] 0
  simp only [List.nil_append, List.length_nil, Nat.add_zero, List.replicate_zero,
    List.append_nil, Nat.zero_add] at h
  simp [flattenBytes, makeBytes, sumLengths_foldl, h]


theorem paramsLoop_eq (P pv : Int) (params : List Value) :
    ∀ (bl vl : List (List Byte)),
      params.foldl (paramStep P pv) (bl, vl)
        = (bl ++ (params.map fun p => [(encodeParam p).1, [7, 0]]).flatten,
           vl ++ (params.map fun p =>
              if pv < P then
                [(encodeParam p).2, if p = Value.nil then [255, 255, 255, 255] else [0, 0, 0, 0]]
              else [(encodeParam p).2]).flatten) := by
  induction params with
  | nil => intro bl vl; simp
  | cons p ps ih =>
    intro bl vl
    rw [List.foldl_cons]
    have hstep : paramStep P pv (bl, vl) p
        = (bl ++ [(encodeParam p).1, [7, 0]],
           vl ++ (if pv < P then
                [(encodeParam p).2, if p = Value.nil then [255, 255, 255, 255] else [0, 0, 0, 0]]
              else [(encodeParam p).2])) := by
      unfold paramStep
      by_cases h1 : pv < P <;> by_cases h2 : p = Value.nil <;> simp [h1, h2]
    rw [hstep, ih]
    simp

theorem flatten_map_flatten {α : Type} (f : α → List (List Byte)) (l : List α) :
    (l.map f).flatten.flatten = (l.map fun a => (f a).flatten).flatten := by
  induction l with
  | nil => simp
  | cons a l ih => simp [List.flatten_append, ih]

theorem paramsToBlr_fst (P pv : Int) (params : List Value) :
    (paramsToBlr P params pv).1
      = [5, 2, 4, 0, byte ((params.length * 2 : Int) % 256), byte ((params.length * 2 : Int) / 2 ^ 8)]
        ++ (params.map fun p => (encodeParam p).1 ++ [7, 0]).flatten ++ [255, 76] := by
  unfold paramsToBlr
  simp only [paramsLoop_eq, flattenBytes_eq]
  simp [List.flatten_append, flatten_map_flatten]

theorem paramsToBlr_snd_ge (P pv : Int) (params : List Value) (h : P ≤ pv) :
    (paramsToBlr P params pv).2
      = (extractBitmap (bitmapLen params.length)
            (setNullBits params (params.length - 1) 0) []).flatten
        ++ (params.map fun p => (encodeParam p).2).flatten := by
  unfold paramsToBlr
  have h1 : ¬ pv < P := by omega
  simp only [paramsLoop_eq, flattenBytes_eq]
  simp [List.flatten_append, flatten_map_flatten, h, h1]

theorem paramsToBlr_snd_lt (P pv : Int) (params : List Value) (h : pv < P) :
    (paramsToBlr P params pv).2
      = (params.map fun p => (encodeParam p).2 ++
          if p = Value.nil then [255, 255, 255, 255] else [0, 0, 0, 0]).flatten := by
  unfold paramsToBlr
  have h1 : ¬ P ≤ pv := by omega
  simp only [paramsLoop_eq, flattenBytes_eq]
  simp [List.flatten_append, flatten_map_flatten, h, h1]



theorem byte_val (x : Int) : ((byte x).val : Int) = x % 256 := by
  simp only [byte]
  omega

theorem bigEndianValue_bint32 (x : Int) :
    (bigEndianValue (bint32_to_bytes x) : Int) = x % 2 ^ 32 := by
  simp only [bigEndianValue, bint32_to_bytes, List.foldl_cons, List.foldl_nil]
  push_cast
  simp only [byte_val]
  omega

theorem bytes_to_bint32_bint32 (x : Int) :
    bytes_to_bint32 (bint32_to_bytes x) = toInt32 x := by
  simp only [bytes_to_bint32, bint32_to_bytes, toInt32, byte_val]
  omega

theorem toInt32_eq_self_iff (x : Int) :
    toInt32 x = x ↔ -2 ^ 31 ≤ x ∧ x < 2 ^ 31 := by
  simp only [toInt32]
  omega

theorem bint32_to_bytes_toInt32 (x : Int) :
    bint32_to_bytes (toInt32 x) = bint32_to_bytes x := by
  simp only [bint32_to_bytes, toInt32, List.cons.injEq, and_true]
  refine ⟨?_, ?_, ?_, ?_⟩ <;> apply Fin.ext <;> simp only [byte] <;> omega

theorem extractBitmap_eq (k x : Nat) (vl : List (List Byte)) :
    extractBitmap (k + 1) x vl
      = vl ++ [[byte (x % 256 : Nat)]] ++ List.replicate k [0] := by
  have hzero : ∀ (k : Nat) (vl : List (List Byte)),
      extractBitmap k 0 vl = vl ++ List.replicate k [0] := by
    intro k
    induction k with
    | zero => intro vl; simp [extractBitmap]
    | succ k ih =>
      intro vl
      rw [extractBitmap]
      simp only [Nat.zero_mod, Nat.zero_div, ih, List.replicate_succ]
      simp [byte]
  rw [extractBitmap]
  have hdiv : x % 256 / 256 = 0 := by omega
  simp only [hdiv, hzero]

theorem extractBitmap_length (k x : Nat) :
    (extractBitmap k x []).flatten.length = k := by
  cases k with
  | zero => simp [extractBitmap]
  | succ k => simp [extractBitmap_eq]

theorem bitmapLen_eq (n : Nat) : bitmapLen n = 4 * (((n + 7) / 8 + 3) / 4) := by
  simp only [bitmapLen]
  split_ifs <;> omega

/-! ## The BLR message of `paramsToBlr` -/

theorem encodeParam_fst_length (p : Value) :
    1 ≤ (encodeParam p).1.length ∧ (encodeParam p).1.length ≤ 3 := by
  cases p with
  | time f => by_cases h : f.year = 0 <;> simp [encodeParam, h, _timeToBlr, _timestampToBlr]
  | _ => simp [encodeParam, _strToBlr, _int32ToBlr]

theorem length_flatten_map_append {α : Type} (f : α → List Byte) (l : List α) :
    ((l.map fun a => f a ++ [7, 0]).flatten).length = (l.map fun a => (f a).length + 2).sum := by
  induction l with
  | nil => simp
  | cons a l ih =>
    rw [List.map_cons, List.flatten_cons, List.length_append, ih]
    simp only [List.length_append, List.length_cons, List.length_nil, List.map_cons,
      List.sum_cons]

/-- C1: for fewer than 32768 parameters and any protocol version, the BLR
buffer of `paramsToBlr` is the envelope `[5,2,4,0,(2n) mod 256,(2n) div 256]`,
then for each parameter in order its type fragment followed by `[7,0]`, then
`[255,76]`; its length is `8` plus the sum of (fragment length + 2), and every
fragment has 1 to 3 bytes. -/
theorem paramsToBlr_blr_layout (PROTOCOL_VERSION13 protocolVersion : Int) (params : List Value)
    (hn : params.length < 32768) :
    (paramsToBlr PROTOCOL_VERSION13 params protocolVersion).1
        = [5, 2, 4, 0, ⟨2 * params.length % 256, Nat.mod_lt _ (by decide)⟩,
            ⟨2 * params.length / 256, by omega⟩]
          ++ (params.map fun p => (encodeParam p).1 ++ [7, 0]).flatten ++ [255, 76]
      ∧ (paramsToBlr PROTOCOL_VERSION13 params protocolVersion).1.length
        = 8 + (params.map fun p => (encodeParam p).1.length + 2).sum
      ∧ ∀ p ∈ params, 1 ≤ (encodeParam p).1.length ∧ (encodeParam p).1.length ≤ 3 := by
  have hlo : byte ((params.length * 2 : Int) % 256)
      = ⟨2 * params.length % 256, Nat.mod_lt _ (by decide)⟩ := by
    apply Fin.ext
    simp only [byte]
    omega
  have hhi : byte ((params.length * 2 : Int) / 2 ^ 8)
      = ⟨2 * params.length / 256, by omega⟩ := by
    apply Fin.ext
    simp only [byte]
    omega
  have hblr := paramsToBlr_fst PROTOCOL_VERSION13 protocolVersion params
  rw [hlo, hhi] at hblr
  refine ⟨hblr, ?_, fun p _ => encodeParam_fst_length p⟩
  rw [hblr]
  simp only [List.length_append, List.length_cons, List.length_nil,
    length_flatten_map_append]
  omega

/-- Witness of C1 on the parameters `[42, nil, "ab"]`. -/
theorem paramsToBlr_blr_layout_witness :
    [Value.int 42, Value.nil, Value.string [97, 98]].length < 32768
      ∧ (paramsToBlr 13 [Value.int 42, Value.nil, Value.string [97, 98]] 13).1
        = [5, 2, 4, 0, 6, 0, 8, 0, 7, 0, 14, 0, 0, 7, 0, 14, 2, 0, 7, 0, 255, 76] :=
  ⟨by decide,
   (paramsToBlr_blr_layout 13 13 [Value.int 42, Value.nil, Value.string [97, 98]]
      (by decide)).1.trans (by decide)⟩

/-! ## The null bitmap -/

/-- C2: evaluation of `paramsToBlr` on nine parameters whose last one (index 8)
is nil, at a protocol version that takes the bitmap branch.  The direct
construction sets bit 0 of bitmap byte 1; the extraction loop of the code
returns four zero bytes, because `Mod` overwrites `null_indicator` with the
remainder before `Div` is applied. -/
theorem paramsToBlr_bitmap_index8 :
    (paramsToBlr 13
        [Value.int 1, Value.int 1, Value.int 1, Value.int 1, Value.int 1, Value.int 1,
         Value.int 1, Value.int 1, Value.nil] 13).2.take 4 = [0, 0, 0, 0]
      ∧ directBitmap
          [Value.int 1, Value.int 1, Value.int 1, Value.int 1, Value.int 1, Value.int 1,
           Value.int 1, Value.int 1, Value.nil] = [0, 1, 0, 0]
      ∧ setNullBits
          [Value.int 1, Value.int 1, Value.int 1, Value.int 1, Value.int 1, Value.int 1,
           Value.int 1, Value.int 1, Value.nil] 8 0 = 256 := by
  refine ⟨by decide, by decide, by decide⟩

/-! ## The value buffer of `paramsToBlr` -/

/-- C3: at a protocol version of at least `PROTOCOL_VERSION13` the value buffer
is a bitmap of `ceil(n/8)` rounded up to a multiple of 4 bytes, followed by the
value bytes of the parameters in order and nothing else; for `[42, nil, "ab"]`
it is a 4-byte bitmap, `00 00 00 2A`, nothing for nil, and `'a' 'b' 00 00`. -/
theorem paramsToBlr_values_bitmap_form (PROTOCOL_VERSION13 protocolVersion : Int)
    (params : List Value) (hv : PROTOCOL_VERSION13 ≤ protocolVersion) :
    (∃ bitmap : List Byte,
        bitmap.length = 4 * (((params.length + 7) / 8 + 3) / 4)
        ∧ (paramsToBlr PROTOCOL_VERSION13 params protocolVersion).2
          = bitmap ++ (params.map fun p => (encodeParam p).2).flatten)
      ∧ (paramsToBlr PROTOCOL_VERSION13
            [Value.int 42, Value.nil, Value.string [97, 98]] protocolVersion).2
          = [2, 0, 0, 0] ++ [0, 0, 0, 42] ++ [] ++ [97, 98, 0, 0] := by
  refine ⟨⟨_, ?_, paramsToBlr_snd_ge PROTOCOL_VERSION13 protocolVersion params hv⟩, ?_⟩
  · rw [extractBitmap_length, bitmapLen_eq]
  · rw [paramsToBlr_snd_ge PROTOCOL_VERSION13 protocolVersion _ hv]
    decide

/-- Witness of C3 at `PROTOCOL_VERSION13 = protocolVersion = 13`. -/
theorem paramsToBlr_values_bitmap_form_witness :
    (13 : Int) ≤ 13
      ∧ (paramsToBlr 13 [Value.int 42, Value.nil, Value.string [97, 98]] 13).2
          = [2, 0, 0, 0, 0, 0, 0, 42, 97, 98, 0, 0] :=
  ⟨by decide,
   (paramsToBlr_values_bitmap_form 13 13 [Value.int 42, Value.nil, Value.string [97, 98]]
      (by decide)).2⟩

/-- C4: below `PROTOCOL_VERSION13` the value buffer has no bitmap: it is, in
parameter order, the value bytes of each parameter followed by `FF FF FF FF`
for nil and `00 00 00 00` otherwise; for `[42, nil, "ab"]` it is
`00 00 00 2A 00 00 00 00 | FF FF FF FF | 'a' 'b' 00 00 00 00 00 00`. -/
theorem paramsToBlr_values_legacy_form (PROTOCOL_VERSION13 protocolVersion : Int)
    (params : List Value) (hv : protocolVersion < PROTOCOL_VERSION13) :
    (paramsToBlr PROTOCOL_VERSION13 params protocolVersion).2
        = (params.map fun p => (encodeParam p).2 ++
            if p = Value.nil then [255, 255, 255, 255] else [0, 0, 0, 0]).flatten
      ∧ (paramsToBlr PROTOCOL_VERSION13
            [Value.int 42, Value.nil, Value.string [97, 98]] protocolVersion).2
          = [0, 0, 0, 42, 0, 0, 0, 0] ++ [255, 255, 255, 255]
            ++ [97, 98, 0, 0, 0, 0, 0, 0] := by
  refine ⟨paramsToBlr_snd_lt PROTOCOL_VERSION13 protocolVersion params hv, ?_⟩
  rw [paramsToBlr_snd_lt PROTOCOL_VERSION13 protocolVersion _ hv]
  decide

/-- Witness of C4 at `PROTOCOL_VERSION13 = 13`, `protocolVersion = 12`. -/
theorem paramsToBlr_values_legacy_form_witness :
    (12 : Int) < 13
      ∧ (paramsToBlr 13 [Value.int 42, Value.nil, Value.string [97, 98]] 12).2
          = [0, 0, 0, 42, 0, 0, 0, 0, 255, 255, 255, 255, 97, 98, 0, 0, 0, 0, 0, 0] :=
  ⟨by decide,
   (paramsToBlr_values_legacy_form 13 12 [Value.int 42, Value.nil, Value.string [97, 98]]
      (by decide)).2⟩

/-! ## Scalar encoders -/

/-- C5: for a string of `n < 65536` bytes `_strToBlr` returns the fragment
`[14, n mod 256, n div 256]` and the bytes of the string followed by
`(4 - n mod 4) mod 4` zero bytes, so the value length is the least multiple of
4 that is at least `n`. -/
theorem strToBlr_spec (s : List Byte) (hn : s.length < 65536) :
    (_strToBlr s).1
        = [14, ⟨s.length % 256, Nat.mod_lt _ (by decide)⟩, ⟨s.length / 256, by omega⟩]
      ∧ (_strToBlr s).2 = s ++ List.replicate ((4 - s.length % 4) % 4) 0
      ∧ 4 ∣ (_strToBlr s).2.length
      ∧ s.length ≤ (_strToBlr s).2.length
      ∧ ∀ m : Nat, 4 ∣ m → s.length ≤ m → (_strToBlr s).2.length ≤ m := by
  have hpad : ((4 - (s.length : Int)) % 4).toNat = (4 - s.length % 4) % 4 := by omega
  have hval : (_strToBlr s).2 = s ++ List.replicate ((4 - s.length % 4) % 4) 0 := by
    simp [_strToBlr, str_to_bytes, bytesJoin, makeBytes, hpad]
  have hlen : (_strToBlr s).2.length = s.length + (4 - s.length % 4) % 4 := by
    rw [hval]; simp
  refine ⟨?_, hval, ?_, ?_, ?_⟩
  · simp only [_strToBlr, str_to_bytes, List.cons.injEq, true_and, and_true]
    constructor <;> apply Fin.ext <;> simp only [byte] <;> omega
  · rw [hlen]; omega
  · rw [hlen]; omega
  · intro m hm hle
    rw [hlen]; omega

/-- Witness of C5 on the string `"ab"`. -/
theorem strToBlr_spec_witness :
    ([97, 98] : List Byte).length < 65536
      ∧ (_strToBlr [97, 98]).2 = [97, 98] ++ List.replicate ((4 - 2 % 4) % 4) 0 :=
  ⟨by decide, (strToBlr_spec [97, 98] (by decide)).2.1⟩

/-- C6: an integer parameter `x` of kind int, int16, int32 or int64 is encoded
with fragment `[8,0]` and four value bytes whose big-endian value is
`x mod 2^32`; `bytes_to_bint32` of them is `x` exactly when
`-2^31 <= x < 2^31`.  In the buffers of `paramsToBlr` for that single parameter
the fragment and the value bytes appear unchanged. -/
theorem int_param_encoding (PROTOCOL_VERSION13 protocolVersion : Int) (x : Int) :
    ∀ p ∈ [Value.int x, Value.int16 x, Value.int32 x, Value.int64 x],
      (encodeParam p).1 = [8, 0]
      ∧ (encodeParam p).2.length = 4
      ∧ (bigEndianValue (encodeParam p).2 : Int) = x % 2 ^ 32
      ∧ (bytes_to_bint32 (encodeParam p).2 = x ↔ -2 ^ 31 ≤ x ∧ x < 2 ^ 31)
      ∧ (paramsToBlr PROTOCOL_VERSION13 [p] protocolVersion).1
          = [5, 2, 4, 0, 2, 0] ++ [8, 0] ++ [7, 0] ++ [255, 76]
      ∧ (paramsToBlr PROTOCOL_VERSION13 [p] protocolVersion).2
          = if PROTOCOL_VERSION13 ≤ protocolVersion then [0, 0, 0, 0] ++ (encodeParam p).2
            else (encodeParam p).2 ++ [0, 0, 0, 0] := by
  have henc : ∀ p ∈ [Value.int x, Value.int16 x, Value.int32 x, Value.int64 x],
      encodeParam p = ([8, 0], bint32_to_bytes x) := by
    intro p hp
    simp only [List.mem_cons, List.mem_singleton, List.not_mem_nil, or_false] at hp
    rcases hp with h | h | h | h <;> subst h <;>
      simp [encodeParam, _int32ToBlr, bytesJoin, bint32_to_bytes_toInt32]
  have hnil : ∀ p ∈ [Value.int x, Value.int16 x, Value.int32 x, Value.int64 x],
      p ≠ Value.nil := by
    intro p hp
    simp only [List.mem_cons, List.mem_singleton, List.not_mem_nil, or_false] at hp
    rcases hp with h | h | h | h <;> subst h <;> simp
  intro p hp
  have he := henc p hp
  refine ⟨by rw [he], by rw [he]; simp [bint32_to_bytes], ?_, ?_, ?_, ?_⟩
  · rw [he]; exact bigEndianValue_bint32 x
  · rw [he]; simp only [bytes_to_bint32_bint32]; exact toInt32_eq_self_iff x
  · rw [paramsToBlr_fst]
    simp only [List.map_cons, List.map_nil, he, List.length_singleton, List.flatten_cons,
      List.flatten_nil, List.append_nil, Nat.cast_one]
    decide
  · by_cases hv : PROTOCOL_VERSION13 ≤ protocolVersion
    · rw [paramsToBlr_snd_ge _ _ _ hv, if_pos hv, he]
      have hb : (extractBitmap (bitmapLen [p].length)
          (setNullBits [p] ([p].length - 1) 0) []).flatten = [0, 0, 0, 0] := by
        have h0 : setNullBits [p] ([p].length - 1) 0 = 0 := rfl
        rw [h0, List.length_singleton]
        decide
      rw [hb]
      simp [he]
    · rw [paramsToBlr_snd_lt _ _ _ (by omega), if_neg hv]
      simp [he, hnil p hp]

/-- Witness of C6 on the int64 value `2^32 + 42`, which is truncated to 42. -/
theorem int_param_encoding_witness :
    Value.int64 4294967338
        ∈ [Value.int 4294967338, Value.int16 4294967338, Value.int32 4294967338,
            Value.int64 4294967338]
      ∧ (bigEndianValue (encodeParam (Value.int64 4294967338)).2 : Int)
        = 4294967338 % 2 ^ 32 :=
  ⟨by decide, (int_param_encoding 13 13 4294967338 (Value.int64 4294967338) (by decide)).2.2.1⟩

theorem isLeapYear_iff (y : Nat) :
    isLeapYear y = true ↔ y % 4 = 0 ∧ (y % 100 ≠ 0 ∨ y % 400 = 0) := by
  simp [isLeapYear]

theorem daysUpToYear_closed (k : Nat) :
    daysUpToYear k + k / 100 = 365 * k + k / 4 + k / 400 := by
  induction k with
  | zero => simp [daysUpToYear]
  | succ k ih =>
    rw [daysUpToYear, daysInYear]
    by_cases hl : isLeapYear (k + 1) = true
    · rw [if_pos hl]
      rw [isLeapYear_iff] at hl
      omega
    · rw [if_neg hl]
      rw [isLeapYear_iff] at hl
      omega

theorem dayNumber_epoch : dayNumber 1858 11 17 = 678576 := by
  have h := daysUpToYear_closed 1857
  simp only [dayNumber, daysUpToMonth, daysInMonth, isLeapYear]
  norm_num at h ⊢
  omega

theorem century_split (jy : Int) (_h : 0 ≤ jy) :
    146097 * (jy / 100) / 4 + 1461 * (jy - 100 * (jy / 100)) / 4
      = 365 * jy + jy / 4 - jy / 100 + jy / 400 := by
  have h1 : 146097 * (jy / 100) / 4 = 36524 * (jy / 100) + jy / 100 / 4 := by omega
  have h2 : 1461 * (jy - 100 * (jy / 100)) / 4
      = 365 * (jy - 100 * (jy / 100)) + (jy - 100 * (jy / 100)) / 4 := by omega
  have h3 : jy / 4 = 25 * (jy / 100) + (jy - 100 * (jy / 100)) / 4 := by omega
  have h4 : jy / 400 = jy / 100 / 4 := by omega
  rw [h1, h2, h3, h4]
  omega

theorem daysUpToMonth_closed (y m : Nat) (hm1 : 1 ≤ m) (hm12 : m ≤ 12) :
    daysUpToMonth y (m - 1)
      = if m ≤ 2 then 31 * (m - 1)
        else (153 * (m - 3) + 2) / 5 + 59 + (if isLeapYear y then 1 else 0) := by
  have hmc : m = 1 ∨ m = 2 ∨ m = 3 ∨ m = 4 ∨ m = 5 ∨ m = 6 ∨ m = 7 ∨ m = 8 ∨ m = 9
      ∨ m = 10 ∨ m = 11 ∨ m = 12 := by omega
  rcases hmc with h1 | h1 | h1 | h1 | h1 | h1 | h1 | h1 | h1 | h1 | h1 | h1 <;> subst h1 <;>
    cases hl : isLeapYear y <;> simp [daysUpToMonth, daysInMonth, hl]

theorem convert_date_j_code (y m d : Int) (h mi s ns : Int) (hy : 1 ≤ y)
    (hm1 : 1 ≤ m) (hm12 : m ≤ 12) :
    _convert_date_j ⟨y, m, d, h, mi, s, ns⟩
      = 365 * (y + (m + 9) / 12 - 1) + (y + (m + 9) / 12 - 1) / 4
        - (y + (m + 9) / 12 - 1) / 100 + (y + (m + 9) / 12 - 1) / 400
        + (153 * ((m + 9) % 12) + 2) / 5 + d - 678882 := by
  have e1 : Int.tdiv (m + 9) 12 = (m + 9) / 12 :=
    Int.tdiv_eq_ediv (by omega) (by omega)
  have e2 : Int.tmod (m + 9) 12 = (m + 9) % 12 :=
    Int.tmod_eq_emod (by omega) (by omega)
  have hjy : (0 : Int) ≤ y + (m + 9) / 12 - 1 := by omega
  have e3 : Int.tdiv (y + (m + 9) / 12 - 1) 100 = (y + (m + 9) / 12 - 1) / 100 :=
    Int.tdiv_eq_ediv hjy (by omega)
  have e4 : Int.tdiv (146097 * ((y + (m + 9) / 12 - 1) / 100)) 4
      = 146097 * ((y + (m + 9) / 12 - 1) / 100) / 4 :=
    Int.tdiv_eq_ediv (by omega) (by omega)
  have e5 : Int.tdiv (1461 * (y + (m + 9) / 12 - 1
        - 100 * ((y + (m + 9) / 12 - 1) / 100))) 4
      = 1461 * (y + (m + 9) / 12 - 1 - 100 * ((y + (m + 9) / 12 - 1) / 100)) / 4 :=
    Int.tdiv_eq_ediv (by omega) (by omega)
  have e6 : Int.tdiv (153 * ((m + 9) % 12) + 2) 5 = (153 * ((m + 9) % 12) + 2) / 5 :=
    Int.tdiv_eq_ediv (by omega) (by omega)
  simp only [_convert_date_j]
  rw [e1, e2, e3, e4, e5, e6, century_split _ hjy]

theorem convert_date_j_eq (y m d : Nat) (h mi s ns : Int) (hy : 1 ≤ y)
    (hm1 : 1 ≤ m) (hm12 : m ≤ 12) :
    _convert_date_j ⟨y, m, d, h, mi, s, ns⟩ = (dayNumber y m d : Int) - 678576 := by
  rw [convert_date_j_code y m d h mi s ns (by omega) (by omega) (by omega)]
  have hyc := daysUpToYear_closed (y - 1)
  have hmc := daysUpToMonth_closed y m hm1 hm12
  simp only [dayNumber]
  generalize daysUpToYear (y - 1) = A at hyc ⊢
  generalize daysUpToMonth y (m - 1) = B at hmc ⊢
  have hA : (A : Int) = 365 * ((y : Int) - 1) + ((y : Int) - 1) / 4 - ((y : Int) - 1) / 100
      + ((y : Int) - 1) / 400 := by omega
  push_cast
  rw [hA]
  by_cases hm2 : m ≤ 2
  · rw [if_pos hm2] at hmc
    have hmm : m = 1 ∨ m = 2 := by omega
    rcases hmm with h1 | h1 <;> subst h1 <;> norm_num at hmc ⊢ <;> subst hmc <;> omega
  · rw [if_neg hm2] at hmc
    have hq : ((m : Int) + 9) / 12 = 1 := by omega
    have hr : ((m : Int) + 9) % 12 = (m : Int) - 3 := by omega
    have hm3 : (((153 * (m - 3) + 2) / 5 : Nat) : Int) = (153 * ((m : Int) - 3) + 2) / 5 := by
      omega
    have hy1 : (y : Int) + 1 - 1 = y := by omega
    rw [hq, hr, hy1]
    generalize (153 * ((m : Int) - 3) + 2) / 5 = M at hm3 ⊢
    by_cases hl : isLeapYear y = true
    · rw [if_pos hl] at hmc
      obtain ⟨l1, l2⟩ := (isLeapYear_iff y).mp hl
      have h4 : (y : Int) / 4 = ((y : Int) - 1) / 4 + 1 := by omega
      rcases l2 with l2 | l2
      · have h100 : (y : Int) / 100 = ((y : Int) - 1) / 100 := by omega
        have h400 : (y : Int) / 400 = ((y : Int) - 1) / 400 := by omega
        rw [h4, h100, h400]
        omega
      · have h100 : (y : Int) / 100 = ((y : Int) - 1) / 100 + 1 := by omega
        have h400 : (y : Int) / 400 = ((y : Int) - 1) / 400 + 1 := by omega
        rw [h4, h100, h400]
        omega
    · rw [if_neg hl] at hmc
      have hl2 : y % 4 ≠ 0 ∨ (y % 100 = 0 ∧ y % 400 ≠ 0) := by
        by_contra hc
        apply hl
        rw [isLeapYear_iff]
        omega
      rcases hl2 with l2 | ⟨l2, l3⟩
      · have h4 : (y : Int) / 4 = ((y : Int) - 1) / 4 := by omega
        have h100 : (y : Int) / 100 = ((y : Int) - 1) / 100 := by omega
        have h400 : (y : Int) / 400 = ((y : Int) - 1) / 400 := by omega
        rw [h4, h100, h400]
        omega
      · have h4 : (y : Int) / 4 = ((y : Int) - 1) / 4 + 1 := by omega
        have h100 : (y : Int) / 100 = ((y : Int) - 1) / 100 + 1 := by omega
        have h400 : (y : Int) / 400 = ((y : Int) - 1) / 400 := by omega
        rw [h4, h100, h400]
        omega

theorem dayNumber_succ_day (y m d : Nat) : dayNumber y m (d + 1) = dayNumber y m d + 1 := by
  simp only [dayNumber]
  omega

theorem dayNumber_succ_month (y m : Nat) (hm1 : 1 ≤ m) :
    dayNumber y (m + 1) 1 = dayNumber y m (daysInMonth y m) + 1 := by
  obtain ⟨k, rfl⟩ : ∃ k, m = k + 1 := ⟨m - 1, by omega⟩
  simp only [dayNumber, Nat.add_sub_cancel, daysUpToMonth]
  omega

theorem dayNumber_succ_year (y : Nat) (hy : 1 ≤ y) :
    dayNumber (y + 1) 1 1 = dayNumber y 12 31 + 1 := by
  obtain ⟨k, rfl⟩ : ∃ k, y = k + 1 := ⟨y - 1, by omega⟩
  have hmc := daysUpToMonth_closed (k + 1) 12 (by omega) (by omega)
  have h0 : daysUpToMonth (k + 1 + 1) (1 - 1) = 0 := rfl
  have h11 : daysUpToMonth (k + 1) (12 - 1) = daysUpToMonth (k + 1) 11 := rfl
  norm_num at hmc
  simp only [dayNumber, Nat.add_sub_cancel, daysUpToYear, daysInYear, h0, h11, hmc]
  split_ifs <;> omega

theorem daysInMonth_le (y m : Nat) : daysInMonth y m ≤ 31 := by
  simp only [daysInMonth]
  split_ifs <;> omega

theorem time_eta (t : Time) (y m d : Nat) (hy : t.year = y) (hm : t.month = m) (hd : t.day = d) :
    t = ⟨y, m, d, t.hour, t.minute, t.second, t.nanosecond⟩ := by
  cases t
  simp_all

theorem convert_date_j_valid (t : Time) (hv : validDate t) :
    _convert_date_j t = modifiedJulianDay t := by
  obtain ⟨hy, hm1, hm12, hd1, hd⟩ := hv
  obtain ⟨y, hye⟩ := Int.eq_ofNat_of_zero_le (by omega : 0 ≤ t.year)
  obtain ⟨m, hme⟩ := Int.eq_ofNat_of_zero_le (by omega : 0 ≤ t.month)
  obtain ⟨d, hde⟩ := Int.eq_ofNat_of_zero_le (by omega : 0 ≤ t.day)
  rw [time_eta t y m d hye hme hde]
  rw [convert_date_j_eq y m d _ _ _ _ (by omega) (by omega) (by omega)]
  simp only [modifiedJulianDay, Int.toNat_ofNat, dayNumber_epoch]
  rfl

theorem modifiedJulianDay_nextDay (t : Time) (hv : validDate t) :
    validDate (nextDay t) ∧ modifiedJulianDay (nextDay t) = modifiedJulianDay t + 1 := by
  obtain ⟨yr, mo, dy, hh, mi, ss, ns⟩ := t
  obtain ⟨hy, hm1, hm12, hd1, hd⟩ := hv
  simp only at hy hm1 hm12 hd1 hd
  obtain ⟨y, rfl⟩ := Int.eq_ofNat_of_zero_le (by omega : 0 ≤ yr)
  obtain ⟨m, rfl⟩ := Int.eq_ofNat_of_zero_le (by omega : 0 ≤ mo)
  obtain ⟨d, rfl⟩ := Int.eq_ofNat_of_zero_le (by omega : 0 ≤ dy)
  have hle := daysInMonth_le y m
  simp only [Int.toNat_ofNat] at hd
  have hd' : d ≤ daysInMonth y m := by exact_mod_cast hd
  simp only [nextDay, Int.toNat_ofNat]
  by_cases h1 : (d : Int) < (daysInMonth y m : Int)
  · rw [if_pos h1]
    simp only [validDate, modifiedJulianDay, Int.toNat_ofNat]
    have e : ((d : Int) + 1).toNat = d + 1 := by omega
    rw [e, dayNumber_succ_day]
    refine ⟨⟨by omega, by omega, by omega, by omega, by omega⟩, ?_⟩
    push_cast
    omega
  · rw [if_neg h1]
    have hdeq : d = daysInMonth y m := by omega
    by_cases h2 : (m : Int) < 12
    · rw [if_pos h2]
      simp only [validDate, modifiedJulianDay, Int.toNat_ofNat]
      have e : ((m : Int) + 1).toNat = m + 1 := by omega
      have e1 : (1 : Int).toNat = 1 := rfl
      rw [e, e1, dayNumber_succ_month y m (by omega), ← hdeq]
      have hpos : 1 ≤ daysInMonth y (m + 1) := by
        simp only [daysInMonth]
        split_ifs <;> omega
      refine ⟨⟨by omega, by omega, by omega, by omega, by exact_mod_cast hpos⟩, ?_⟩
      push_cast
      omega
    · rw [if_neg h2]
      have hm12' : m = 12 := by omega
      subst hm12'
      have hd31 : d = 31 := by
        rw [hdeq]; simp [daysInMonth]
      subst hd31
      simp only [validDate, modifiedJulianDay]
      have e : ((y : Int) + 1).toNat = y + 1 := by omega
      have e1 : (1 : Int).toNat = 1 := rfl
      rw [e, e1, dayNumber_succ_year y (by omega)]
      refine ⟨⟨by omega, by omega, by omega, by omega, by simp [daysInMonth]⟩, ?_⟩
      simp only [Int.toNat_ofNat]
      push_cast
      omega

theorem convert_date_j_bounds (t : Time) (hv : validDate t) (hy : t.year ≤ 10000) :
    -2 ^ 31 ≤ _convert_date_j t ∧ _convert_date_j t < 2 ^ 31 := by
  obtain ⟨hy1, hm1, hm12, hd1, hd⟩ := hv
  have hle := daysInMonth_le t.year.toNat t.month.toNat
  have hd31 : t.day ≤ 31 := by omega
  have hc := convert_date_j_code t.year t.month t.day t.hour t.minute t.second t.nanosecond
    hy1 hm1 hm12
  have heta : (⟨t.year, t.month, t.day, t.hour, t.minute, t.second, t.nanosecond⟩ : Time) = t := by
    cases t; rfl
  rw [heta] at hc
  rw [hc]
  constructor <;> omega

theorem bytes_to_bint32_convert (j : Int) (hlo : -2 ^ 31 ≤ j) (hhi : j < 2 ^ 31) :
    bytes_to_bint32 (bint32_to_bytes (toInt32 j)) = j := by
  rw [bint32_to_bytes_toInt32, bytes_to_bint32_bint32]
  exact (toInt32_eq_self_iff j).mpr ⟨hlo, hhi⟩

theorem convert_date_j_2000 (h mi s ns : Int) :
    _convert_date_j ⟨2000, 1, 1, h, mi, s, ns⟩ = 51544 := by
  simp only [_convert_date_j]
  decide

theorem convert_date_j_1900 (h mi s ns : Int) :
    _convert_date_j ⟨1900, 1, 1, h, mi, s, ns⟩ = 15020 := by
  simp only [_convert_date_j]
  decide

/-! ## Calendar and time codec -/

/-- C7: for a valid proleptic Gregorian date in the years 1 to 9999,
`_convert_date` is the 4-byte big-endian encoding of the modified Julian day
number (days elapsed since 1858-11-17); the encoded number grows by exactly 1
from each calendar day to the next, and it is 51544 for 2000-01-01 and 15020
for 1900-01-01. -/
theorem convert_date_modified_julian_day (t : Time) (hv : validDate t) (hy : t.year ≤ 9999) :
    _convert_date t = bint32_to_bytes (modifiedJulianDay t)
      ∧ (_convert_date t).length = 4
      ∧ bytes_to_bint32 (_convert_date t) = modifiedJulianDay t
      ∧ validDate (nextDay t)
      ∧ bytes_to_bint32 (_convert_date (nextDay t)) = bytes_to_bint32 (_convert_date t) + 1
      ∧ bytes_to_bint32
          (_convert_date ⟨2000, 1, 1, t.hour, t.minute, t.second, t.nanosecond⟩) = 51544
      ∧ bytes_to_bint32
          (_convert_date ⟨1900, 1, 1, t.hour, t.minute, t.second, t.nanosecond⟩) = 15020 := by
  have hj := convert_date_j_valid t hv
  have hb := convert_date_j_bounds t hv (by omega)
  obtain ⟨hvn, hn⟩ := modifiedJulianDay_nextDay t hv
  have hjn := convert_date_j_valid (nextDay t) hvn
  have hyn : (nextDay t).year ≤ 10000 := by
    simp only [nextDay]
    split_ifs <;> simp only <;> omega
  have hbn := convert_date_j_bounds (nextDay t) hvn hyn
  have h1 : bytes_to_bint32 (_convert_date t) = modifiedJulianDay t := by
    rw [_convert_date, bytes_to_bint32_convert _ hb.1 hb.2, hj]
  have h2 : bytes_to_bint32 (_convert_date (nextDay t)) = modifiedJulianDay t + 1 := by
    rw [_convert_date, bytes_to_bint32_convert _ hbn.1 hbn.2, hjn, hn]
  refine ⟨?_, by simp [_convert_date, bint32_to_bytes], h1, hvn, by rw [h2, h1], ?_, ?_⟩
  · rw [_convert_date, bint32_to_bytes_toInt32, hj]
  · rw [_convert_date, convert_date_j_2000]
    decide
  · rw [_convert_date, convert_date_j_1900]
    decide

/-- Witness of C7 on the leap day 2000-02-29, whose next day is 2000-03-01. -/
theorem convert_date_modified_julian_day_witness :
    validDate ⟨2000, 2, 29, 0, 0, 0, 0⟩ ∧ (2000 : Int) ≤ 9999
      ∧ bytes_to_bint32 (_convert_date (nextDay ⟨2000, 2, 29, 0, 0, 0, 0⟩))
        = bytes_to_bint32 (_convert_date ⟨2000, 2, 29, 0, 0, 0, 0⟩) + 1 :=
  ⟨by decide, by decide,
   (convert_date_modified_julian_day ⟨2000, 2, 29, 0, 0, 0, 0⟩ (by decide)
      (by decide)).2.2.2.2.1⟩

/-- C8: for a time of day with components in their normal ranges,
`_convert_time` is the 4-byte big-endian encoding of
`(hour*3600 + minute*60 + second) * 10000 + nanosecond div 100000`; the value
lies in `[0, 863999999]`, the narrowing to int32 leaves it unchanged, and it is
monotone non-decreasing in the time of day. -/
theorem convert_time_fixed_point (t : Time) (hv : validTimeOfDay t) :
    _convert_time t
        = bint32_to_bytes
            ((t.hour * 3600 + t.minute * 60 + t.second) * 10000 + t.nanosecond / 100000)
      ∧ (_convert_time t).length = 4
      ∧ _convert_time_v t
        = (t.hour * 3600 + t.minute * 60 + t.second) * 10000 + t.nanosecond / 100000
      ∧ 0 ≤ _convert_time_v t ∧ _convert_time_v t ≤ 863999999
      ∧ toInt32 (_convert_time_v t) = _convert_time_v t
      ∧ bytes_to_bint32 (_convert_time t) = _convert_time_v t
      ∧ ∀ u : Time, validTimeOfDay u → nanosOfDay t ≤ nanosOfDay u →
          _convert_time_v t ≤ _convert_time_v u
            ∧ bytes_to_bint32 (_convert_time t) ≤ bytes_to_bint32 (_convert_time u) := by
  have hval : ∀ u : Time, validTimeOfDay u →
      _convert_time_v u
          = (u.hour * 3600 + u.minute * 60 + u.second) * 10000 + u.nanosecond / 100000
        ∧ 0 ≤ _convert_time_v u ∧ _convert_time_v u ≤ 863999999 := by
    intro u hu
    obtain ⟨h0, h1, m0, m1, s0, s1, n0, n1⟩ := hu
    have e : Int.tdiv u.nanosecond 100000 = u.nanosecond / 100000 :=
      Int.tdiv_eq_ediv n0 (by omega)
    simp only [_convert_time_v, e]
    refine ⟨trivial, ?_, ?_⟩ <;> omega
  have hdec : ∀ u : Time, validTimeOfDay u →
      bytes_to_bint32 (_convert_time u) = _convert_time_v u := by
    intro u hu
    obtain ⟨_, u0, u1⟩ := hval u hu
    rw [_convert_time, bytes_to_bint32_convert _ (by omega) (by omega)]
  obtain ⟨e, v0, v1⟩ := hval t hv
  refine ⟨?_, by simp [_convert_time, bint32_to_bytes], e, v0, v1, ?_, hdec t hv, ?_⟩
  · rw [_convert_time, bint32_to_bytes_toInt32, e]
  · exact (toInt32_eq_self_iff _).mpr ⟨by omega, by omega⟩
  · intro u hu hle
    have hmono : _convert_time_v t ≤ _convert_time_v u := by
      obtain ⟨eu, _, _⟩ := hval u hu
      obtain ⟨h0, h1, m0, m1, s0, s1, n0, n1⟩ := hv
      obtain ⟨a0, a1, b0, b1, c0, c1, d0, d1⟩ := hu
      rw [e, eu]
      simp only [nanosOfDay] at hle
      omega
    exact ⟨hmono, by rw [hdec t hv, hdec u hu]; exact hmono⟩

/-- Witness of C8 on the time 23:59:59.999999999. -/
theorem convert_time_fixed_point_witness :
    validTimeOfDay ⟨0, 1, 1, 23, 59, 59, 999999999⟩
      ∧ _convert_time_v ⟨0, 1, 1, 23, 59, 59, 999999999⟩ ≤ 863999999 :=
  ⟨by decide,
   (convert_time_fixed_point ⟨0, 1, 1, 23, 59, 59, 999999999⟩ (by decide)).2.2.2.2.1⟩

theorem paramsToBlr_singleton (P pv : Int) (p : Value) :
    paramsToBlr P [p] pv
      = ([5, 2, 4, 0, 2, 0] ++ (encodeParam p).1 ++ [7, 0] ++ [255, 76],
         if P ≤ pv then [0, 0, 0, 0] ++ (encodeParam p).2
         else (encodeParam p).2 ++
           if p = Value.nil then [255, 255, 255, 255] else [0, 0, 0, 0]) := by
  apply Prod.ext
  · rw [paramsToBlr_fst]
    have h1 : byte (((1 : Nat) : Int) * 2 % 256) = 2 := by decide
    have h2 : byte (((1 : Nat) : Int) * 2 / 2 ^ 8) = 0 := by decide
    rw [List.length_singleton, h1, h2]
    simp
  · by_cases hv : P ≤ pv
    · rw [paramsToBlr_snd_ge _ _ _ hv]
      have h0 : setNullBits [p] ([p].length - 1) 0 = 0 := rfl
      have hb : (extractBitmap (bitmapLen 1) 0 []).flatten = [0, 0, 0, 0] := by decide
      simp only [if_pos hv]
      rw [h0, List.length_singleton, hb]
      simp
    · rw [paramsToBlr_snd_lt _ _ _ (by omega)]
      simp only [if_neg hv]
      simp

/-- C9: a `time.Time` parameter is encoded as fragment `[13]` with the 4 bytes
of `_convert_time` when its year is 0, and otherwise as fragment `[35]` with
the 8 bytes `_convert_date` followed by `_convert_time`; its fragment is never
`[12]`, and `paramsToBlr` places that fragment in its BLR buffer. -/
theorem time_param_encoding (PROTOCOL_VERSION13 protocolVersion : Int) (t : Time) :
    encodeParam (Value.time t)
        = (if t.year = 0 then ([13], _convert_time t)
           else ([35], _convert_date t ++ _convert_time t))
      ∧ (_convert_time t).length = 4
      ∧ (_convert_date t ++ _convert_time t).length = 8
      ∧ (encodeParam (Value.time t)).1 ≠ [12]
      ∧ (paramsToBlr PROTOCOL_VERSION13 [Value.time t] protocolVersion).1
          = [5, 2, 4, 0, 2, 0] ++ (if t.year = 0 then [13] else [35]) ++ [7, 0] ++ [255, 76]
      ∧ (paramsToBlr PROTOCOL_VERSION13 [Value.time t] protocolVersion).2
          = if PROTOCOL_VERSION13 ≤ protocolVersion then
              [0, 0, 0, 0] ++ (if t.year = 0 then _convert_time t
                else _convert_date t ++ _convert_time t)
            else (if t.year = 0 then _convert_time t
                else _convert_date t ++ _convert_time t) ++ [0, 0, 0, 0] := by
  have henc : encodeParam (Value.time t)
      = (if t.year = 0 then ([13], _convert_time t)
         else ([35], _convert_date t ++ _convert_time t)) := by
    by_cases h : t.year = 0 <;>
      simp [encodeParam, h, _timeToBlr, _timestampToBlr, bytesJoin]
  refine ⟨henc, by simp [_convert_time, bint32_to_bytes],
    by simp [_convert_time, _convert_date, bint32_to_bytes], ?_, ?_, ?_⟩
  · rw [henc]
    by_cases h : t.year = 0 <;> simp [h]
  · rw [paramsToBlr_singleton, henc]
    by_cases h : t.year = 0 <;> simp [h]
  · rw [paramsToBlr_singleton, henc]
    by_cases h : t.year = 0 <;> simp [h]

/-! ## XDR framing -/

theorem xdrBytes_eq (bs : List Byte) :
    xdrBytes bs
      = bint32_to_bytes bs.length ++ bs ++ List.replicate ((4 - bs.length % 4) % 4) 0 := by
  have hpad : (if bs.length % 4 ≠ 0 then 4 - bs.length % 4 else 0) = (4 - bs.length % 4) % 4 := by
    split_ifs <;> omega
  have hmk : makeBytes (4 + bs.length + (4 - bs.length % 4) % 4)
      = (0 : Byte) :: 0 :: 0 :: 0 ::
          (List.replicate bs.length (0 : Byte)
            ++ List.replicate ((4 - bs.length % 4) % 4) (0 : Byte)) := by
    have : 4 + bs.length + (4 - bs.length % 4) % 4
        = (bs.length + (4 - bs.length % 4) % 4) + 1 + 1 + 1 + 1 := by omega
    rw [makeBytes, this]
    simp only [List.replicate_succ, List.replicate_add]
  have hw := copyAt_window bs
    [byte ((bs.length : Int) / 2 ^ 24 % 256), byte ((bs.length : Int) / 2 ^ 16 % 256),
     byte ((bs.length : Int) / 2 ^ 8 % 256), byte ((bs.length : Int) % 256)]
    (List.replicate bs.length 0) (List.replicate ((4 - bs.length % 4) % 4) 0) (by simp)
  simp only [xdrBytes, hpad, hmk, List.set_cons_zero, List.set_cons_succ]
  simpa [bint32_to_bytes] using hw

/-- C10: for a byte string of length `n < 2^31`, `xdrBytes` has length
`4 + n + ((4 - n mod 4) mod 4)`; its first four bytes are the big-endian
encoding of `n`, the next `n` bytes are the input and the rest is zero, so
reading the length with `bytes_to_bint32` and taking that many bytes after the
length field recovers the input; `xdrString` is `xdrBytes` of the bytes of the
string. -/
theorem xdrBytes_frame (bs : List Byte) (hn : bs.length < 2 ^ 31) :
    (xdrBytes bs).length = 4 + bs.length + (4 - bs.length % 4) % 4
      ∧ (xdrBytes bs).take 4 = bint32_to_bytes bs.length
      ∧ bigEndianValue ((xdrBytes bs).take 4) = bs.length
      ∧ ((xdrBytes bs).drop 4).take bs.length = bs
      ∧ (xdrBytes bs).drop (4 + bs.length) = List.replicate ((4 - bs.length % 4) % 4) 0
      ∧ bytes_to_bint32 (xdrBytes bs) = bs.length
      ∧ ((xdrBytes bs).drop 4).take (bytes_to_bint32 (xdrBytes bs)).toNat = bs
      ∧ xdrString bs = xdrBytes bs := by
  have hx := xdrBytes_eq bs
  have hlen4 : (bint32_to_bytes (bs.length : Int)).length = 4 := by simp [bint32_to_bytes]
  have htake : (xdrBytes bs).take 4 = bint32_to_bytes bs.length := by
    rw [hx, List.append_assoc, List.take_left' hlen4]
  have hdrop : (xdrBytes bs).drop 4
      = bs ++ List.replicate ((4 - bs.length % 4) % 4) 0 := by
    rw [hx, List.append_assoc, List.drop_left' hlen4]
  have hdec : bytes_to_bint32 (xdrBytes bs) = bs.length := by
    have h1 : bytes_to_bint32 (xdrBytes bs) = bytes_to_bint32 (bint32_to_bytes bs.length) := by
      rw [hx]
      simp [bint32_to_bytes, bytes_to_bint32]
    rw [h1, bytes_to_bint32_bint32]
    exact (toInt32_eq_self_iff _).mpr ⟨by omega, by exact_mod_cast hn⟩
  refine ⟨?_, htake, ?_, ?_, ?_, hdec, ?_, rfl⟩
  · rw [hx]
    simp [bint32_to_bytes]
    omega
  · rw [htake]
    have h := bigEndianValue_bint32 (bs.length : Int)
    have hmod : ((bs.length : Int)) % 2 ^ 32 = bs.length := by
      have : (bs.length : Int) < 2 ^ 31 := by exact_mod_cast hn
      omega
    rw [hmod] at h
    exact_mod_cast h
  · rw [hdrop, List.take_left' rfl]
  · rw [← List.drop_drop, hdrop, List.drop_left' rfl]
  · rw [hdec, hdrop, Int.toNat_ofNat, List.take_left' rfl]

/-- Witness of C10 on the two bytes of `"ab"`. -/
theorem xdrBytes_frame_witness :
    ([97, 98] : List Byte).length < 2 ^ 31
      ∧ ((xdrBytes [97, 98]).drop 4).take (bytes_to_bint32 (xdrBytes [97, 98])).toNat
        = [97, 98] :=
  ⟨by decide, (xdrBytes_frame [97, 98] (by decide)).2.2.2.2.2.2.1⟩

/-! ## Endian primitives -/

theorem bytes_to_int32_int32 (x : Int) :
    bytes_to_int32 (int32_to_bytes x) = toInt32 x := by
  simp only [bytes_to_int32, int32_to_bytes, toInt32, byte_val]
  omega

theorem bytes_to_int16_int16 (y : Int) :
    bytes_to_int16 (int16_to_bytes y) = toInt16 y := by
  simp only [bytes_to_int16, int16_to_bytes, toInt16, byte_val]
  omega

theorem bint32_to_bytes_of_bytes (b0 b1 b2 b3 : Byte) :
    bint32_to_bytes (bytes_to_bint32 [b0, b1, b2, b3]) = [b0, b1, b2, b3] := by
  have h0 := b0.isLt
  have h1 := b1.isLt
  have h2 := b2.isLt
  have h3 := b3.isLt
  simp only [bytes_to_bint32, bint32_to_bytes_toInt32]
  simp only [bint32_to_bytes, List.cons.injEq, and_true]
  refine ⟨?_, ?_, ?_, ?_⟩ <;> apply Fin.ext <;> simp only [byte] <;> omega

/-- C11: the fixed-width encoders and decoders are mutually inverse: for an
int32 `x`, `bytes_to_bint32 (bint32_to_bytes x) = x` and
`bytes_to_int32 (int32_to_bytes x) = x`; for an int16 `y` (negative values
included), `bytes_to_int16 (int16_to_bytes y) = y`; and for a sequence `b` of
four bytes, `bint32_to_bytes (bytes_to_bint32 b) = b`. -/
theorem fixed_width_roundtrip (x y : Int) (b : List Byte)
    (hx : -2 ^ 31 ≤ x ∧ x < 2 ^ 31) (hy : -2 ^ 15 ≤ y ∧ y < 2 ^ 15) (hb : b.length = 4) :
    bytes_to_bint32 (bint32_to_bytes x) = x
      ∧ bytes_to_int32 (int32_to_bytes x) = x
      ∧ bytes_to_int16 (int16_to_bytes y) = y
      ∧ bint32_to_bytes (bytes_to_bint32 b) = b := by
  refine ⟨?_, ?_, ?_, ?_⟩
  · rw [bytes_to_bint32_bint32]
    exact (toInt32_eq_self_iff x).mpr hx
  · rw [bytes_to_int32_int32]
    exact (toInt32_eq_self_iff x).mpr hx
  · rw [bytes_to_int16_int16]
    simp only [toInt16]
    omega
  · match b, hb with
    | [b0, b1, b2, b3], _ => exact bint32_to_bytes_of_bytes b0 b1 b2 b3

/-- Witness of C11 on `x = -5`, `y = -2` and the bytes `FF 00 01 02`. -/
theorem fixed_width_roundtrip_witness :
    (-(2 : Int) ^ 31 ≤ -5 ∧ (-5 : Int) < 2 ^ 31) ∧ (-(2 : Int) ^ 15 ≤ -2 ∧ (-2 : Int) < 2 ^ 15)
      ∧ ([255, 0, 1, 2] : List Byte).length = 4
      ∧ bytes_to_int16 (int16_to_bytes (-2)) = -2
      ∧ bint32_to_bytes (bytes_to_bint32 [255, 0, 1, 2]) = [255, 0, 1, 2] :=
  ⟨by decide, by decide, by decide,
   (fixed_width_roundtrip (-5) (-2) [255, 0, 1, 2] (by decide) (by decide) (by decide)).2.2⟩

/-! ## Range-checked stores -/

theorem storeBytes_window (vs : List Byte) :
    ∀ (pre mid post : List Byte), mid.length = vs.length →
      storeBytes (pre ++ mid ++ post) pre.length vs = some (pre ++ vs ++ post) := by
  induction vs with
  | nil =>
    intro pre mid post h
    have hm : mid = [] := List.length_eq_zero.mp (by simpa using h)
    simp [storeBytes, hm]
  | cons v rest ih =>
    intro pre mid post h
    cases mid with
    | nil => simp at h
    | cons m mid1 =>
      have hst : storeByte (pre ++ m :: mid1 ++ post) pre.length v
          = some ((pre ++ [v]) ++ mid1 ++ post) := by
        simp [storeByte, List.set_append]
      have hlen : (pre ++ [v]).length = pre.length + 1 := by simp
      rw [storeBytes, hst, Option.some_bind, ← hlen,
        ih (pre ++ [v]) mid1 post (by simpa using h)]
      simp

theorem storeBytes_zeros (vs pre : List Byte) (r : Nat) (h : vs.length ≤ r) :
    storeBytes (pre ++ List.replicate r 0) pre.length vs
      = some (pre ++ vs ++ List.replicate (r - vs.length) 0) := by
  have hsplit : List.replicate r (0 : Byte)
      = List.replicate vs.length 0 ++ List.replicate (r - vs.length) 0 := by
    rw [← List.replicate_add]; congr 1; omega
  rw [hsplit, ← List.append_assoc]
  exact storeBytes_window vs pre _ _ (by simp)

theorem typeBytes_length_le (x : xSQLVAR) (s : Int) : (typeBytes x s).length ≤ 3 := by
  simp only [typeBytes]
  split <;> simp

theorem descriptorBytes_length_le (x : xSQLVAR) : (descriptorBytes x).length ≤ 5 := by
  have h := typeBytes_length_le x (if x.sqlscale < 0 then x.sqlscale + 256 else x.sqlscale)
  simp only [descriptorBytes, List.length_append, List.length_cons, List.length_nil]
  omega

theorem body_length_le (xs : List xSQLVAR) :
    ((xs.map descriptorBytes).flatten).length ≤ 5 * xs.length := by
  induction xs with
  | nil => simp
  | cons x xs ih =>
    have h := descriptorBytes_length_le x
    simp only [List.map_cons, List.flatten_cons, List.length_append, List.length_cons]
    omega

theorem calcBlrStep_eq (x : xSQLVAR) (out : List Byte) (r : Nat) (h : 5 ≤ r) :
    calcBlrStep (out ++ List.replicate r 0, out.length) x
      = some (out ++ descriptorBytes x ++ List.replicate (r - (descriptorBytes x).length) 0,
          (out ++ descriptorBytes x).length) := by
  have ht := typeBytes_length_le x (if x.sqlscale < 0 then x.sqlscale + 256 else x.sqlscale)
  simp only [calcBlrStep, descriptorBytes]
  generalize typeBytes x (if x.sqlscale < 0 then x.sqlscale + 256 else x.sqlscale) = T at ht
  rw [storeBytes_zeros T out r (by omega), Option.some_bind]
  have hlen : out.length + T.length = (out ++ T).length := by simp
  rw [hlen, storeBytes_zeros [7, 0] (out ++ T) (r - T.length)
    (by simp only [List.length_cons, List.length_nil]; omega)]
  have hr : r - T.length - ([7, 0] : List Byte).length = r - (T ++ [7, 0]).length := by
    simp only [List.length_append, List.length_cons, List.length_nil]
    omega
  rw [hr]
  simp only [Option.map_some', List.append_assoc, List.length_append, List.length_cons,
    List.length_nil]
  congr 2

theorem calcBlrLoop_eq (xs : List xSQLVAR) :
    ∀ (out : List Byte) (r : Nat), 5 * xs.length ≤ r →
      xs.foldlM calcBlrStep (out ++ List.replicate r 0, out.length)
        = some (out ++ (xs.map descriptorBytes).flatten
              ++ List.replicate (r - ((xs.map descriptorBytes).flatten).length) 0,
            (out ++ (xs.map descriptorBytes).flatten).length) := by
  induction xs with
  | nil => intro out r _; simp
  | cons x xs ih =>
    intro out r h
    have hx := descriptorBytes_length_le x
    simp only [List.length_cons] at h
    rw [List.foldlM_cons, calcBlrStep_eq x out r (by omega)]
    simp only [Option.bind_eq_bind, Option.some_bind]
    rw [ih (out ++ descriptorBytes x) _ (by omega)]
    have hr : r - (descriptorBytes x).length - ((xs.map descriptorBytes).flatten).length
        = r - (((x :: xs).map descriptorBytes).flatten).length := by
      simp only [List.map_cons, List.flatten_cons, List.length_append]
      omega
    rw [hr]
    simp only [List.map_cons, List.flatten_cons, List.append_assoc, List.length_append]

theorem calcBlrRun_eq (xs : List xSQLVAR) :
    calcBlrRun xs
      = some ([5, 2, 4, 0, byte (((xs.length * 2 : Nat) : Int) % 256),
              byte (((xs.length * 2 : Nat) : Int) / 2 ^ 8)]
            ++ (xs.map descriptorBytes).flatten ++ [255, 76]
            ++ List.replicate (xs.length * 2 * 4 - ((xs.map descriptorBytes).flatten).length) 0,
          8 + ((xs.map descriptorBytes).flatten).length) := by
  have hb := body_length_le xs
  generalize henv : ([5, 2, 4, 0, byte (((xs.length * 2 : Nat) : Int) % 256),
      byte (((xs.length * 2 : Nat) : Int) / 2 ^ 8)] : List Byte) = env
  have henvlen : env.length = 6 := by rw [← henv]; rfl
  have h1 := storeBytes_zeros env [] (xs.length * 2 * 4 + 8) (by omega)
  simp only [List.nil_append, List.length_nil, henvlen] at h1
  have h2 := calcBlrLoop_eq xs env (xs.length * 2 * 4 + 8 - 6) (by omega)
  have h3 := storeBytes_zeros [255, 76] (env ++ (xs.map descriptorBytes).flatten)
    (xs.length * 2 * 4 + 8 - 6 - ((xs.map descriptorBytes).flatten).length)
    (by simp only [List.length_cons, List.length_nil]; omega)
  rw [henvlen] at h2
  simp only [calcBlrRun, makeBytes, henv, h1, Option.some_bind, h2, h3, Option.map_some']
  have hr : xs.length * 2 * 4 + 8 - 6 - ((xs.map descriptorBytes).flatten).length
        - ([255, 76] : List Byte).length
      = xs.length * 2 * 4 - ((xs.map descriptorBytes).flatten).length := by
    simp only [List.length_cons, List.length_nil]
    omega
  rw [hr]
  simp only [List.length_append, henvlen]
  congr 2
  omega

theorem calcBlr_eq (xs : List xSQLVAR) :
    calcBlr xs
      = some ([5, 2, 4, 0, byte (((xs.length * 2 : Nat) : Int) % 256),
              byte (((xs.length * 2 : Nat) : Int) / 2 ^ 8)]
            ++ (xs.map descriptorBytes).flatten ++ [255, 76]) := by
  have hb := body_length_le xs
  simp only [calcBlr, calcBlrRun_eq, Option.some_bind, sliceTo]
  have hlen : ([5, 2, 4, 0, byte (((xs.length * 2 : Nat) : Int) % 256),
        byte (((xs.length * 2 : Nat) : Int) / 2 ^ 8)]
      ++ (xs.map descriptorBytes).flatten ++ [255, 76]).length
      = 8 + ((xs.map descriptorBytes).flatten).length := by
    simp only [List.length_append, List.length_cons, List.length_nil]
    omega
  rw [if_pos (by rw [List.length_append, hlen]; omega), List.take_left' hlen]

theorem byteValues_append (a b : List Byte) :
    byteValues (a ++ b) = byteValues a ++ byteValues b := by
  simp [byteValues]

theorem byteValues_descriptorBytes (x : xSQLVAR) :
    byteValues (descriptorBytes x) = fragmentValues x ++ [7, 0] := by
  obtain ⟨t, len, s⟩ := x
  have hs : ((if s < 0 then s + 256 else s) % 256).toNat = (s % 256).toNat := by
    split_ifs <;> omega
  have h1 : ((len % 256 % 256).toNat : Int) = len % 256 := by omega
  have h2 : ((len / 2 ^ 8 % 256).toNat : Int) = len / 256 % 256 := by omega
  have h3 : (((s % 256).toNat : Nat) : Int) = s % 256 := by omega
  cases t <;>
    simp [byteValues, descriptorBytes, typeBytes, fragmentValues, statedFragment, byte, hs,
      h1, h2, h3] <;>
    (repeat' constructor) <;> first | rfl | omega

theorem byteValues_body (xs : List xSQLVAR) :
    byteValues ((xs.map descriptorBytes).flatten)
      = (xs.map fun x => fragmentValues x ++ [7, 0]).flatten := by
  induction xs with
  | nil => rfl
  | cons x xs ih =>
    simp only [List.map_cons, List.flatten_cons, byteValues_append, ih,
      byteValues_descriptorBytes]

theorem fragmentValues_length (x : xSQLVAR) :
    (fragmentValues x).length + 2 = (descriptorBytes x).length := by
  have h := congrArg List.length (byteValues_descriptorBytes x)
  simp only [byteValues, List.length_map, List.length_append, List.length_cons,
    List.length_nil] at h
  omega

/-! ## The BLR message of `calcBlr` -/

/-- C12, as stated, fails on a TEXT descriptor of declared length 65536:
`calcBlr` stores the bytes `[14, 0, 0]`, while the stated fragment
`[14, sqllen mod 256, sqllen div 256]` is `[14, 0, 256]`. -/
theorem calcBlr_text_sqllen_65536 :
    calcBlr [⟨SqlType.SQL_TYPE_TEXT, 65536, 0⟩]
        = some [5, 2, 4, 0, 2, 0, 14, 0, 0, 7, 0, 255, 76]
      ∧ statedFragment ⟨SqlType.SQL_TYPE_TEXT, 65536, 0⟩ = [14, 0, 256]
      ∧ byteValues [5, 2, 4, 0, 2, 0, 14, 0, 0, 7, 0, 255, 76]
        ≠ [5, 2, 4, 0, 2, 0] ++ statedFragment ⟨SqlType.SQL_TYPE_TEXT, 65536, 0⟩
            ++ [7, 0] ++ [255, 76] := by
  refine ⟨by decide, by decide, by decide⟩

/-- C12, amended: for fewer than 32768 column descriptors `calcBlr` returns
`[5,2,4,0,(2n) mod 256,(2n) div 256]`, then for each descriptor in order its
fragment followed by `[7,0]`, then `[255,76]`, so the length is 8 plus the sum
of (fragment length + 2).  The fragment is
`[tag, sqllen mod 256, (sqllen div 256) mod 256]` for VARYING (37) and TEXT
(14), which is `[tag, sqllen mod 256, sqllen div 256]` whenever
`0 <= sqllen < 65536`; two bytes for LONG (8), SHORT (7), INT64 (16), QUAD (9),
BLOB and ARRAY (`[9,0]`); one byte for DOUBLE (27), FLOAT (10), D_FLOAT (11),
DATE (12), TIME (13), TIMESTAMP (35), BOOLEAN (23).  The descriptors
`[TEXT(len=10), LONG(scale=-2), DOUBLE]` give 20 bytes. -/
theorem calcBlr_layout (xsqlda : List xSQLVAR) (hn : xsqlda.length < 32768) :
    (∃ out : List Byte, calcBlr xsqlda = some out
        ∧ byteValues out
          = [5, 2, 4, 0, (2 * (xsqlda.length : Int)) % 256, (2 * (xsqlda.length : Int)) / 256]
            ++ (xsqlda.map fun x => fragmentValues x ++ [7, 0]).flatten ++ [255, 76]
        ∧ out.length = 8 + (xsqlda.map fun x => (fragmentValues x).length + 2).sum)
      ∧ (∀ x : xSQLVAR, 0 ≤ x.sqllen → x.sqllen < 65536 → fragmentValues x = statedFragment x)
      ∧ (∀ x : xSQLVAR, x.sqltype ≠ SqlType.SQL_TYPE_VARYING →
          x.sqltype ≠ SqlType.SQL_TYPE_TEXT → fragmentValues x = statedFragment x)
      ∧ (calcBlr [⟨SqlType.SQL_TYPE_TEXT, 10, 0⟩, ⟨SqlType.SQL_TYPE_LONG, 4, -2⟩,
            ⟨SqlType.SQL_TYPE_DOUBLE, 8, 0⟩]).map List.length = some 20 := by
  refine ⟨⟨_, calcBlr_eq xsqlda, ?_, ?_⟩, ?_, ?_, by decide⟩
  · rw [byteValues_append, byteValues_append, byteValues_body]
    have e1 : (((byte (((xsqlda.length * 2 : Nat) : Int) % 256)).val : Nat) : Int)
        = (2 * (xsqlda.length : Int)) % 256 := by
      rw [byte_val]; omega
    have e2 : (((byte (((xsqlda.length * 2 : Nat) : Int) / 2 ^ 8)).val : Nat) : Int)
        = (2 * (xsqlda.length : Int)) / 256 := by
      rw [byte_val]; omega
    simp only [byteValues, List.map_cons, List.map_nil, e1, e2]
    rfl
  · have hsum : ∀ l : List xSQLVAR, ((l.map descriptorBytes).flatten).length
        = (l.map fun x => (fragmentValues x).length + 2).sum := by
      intro l
      induction l with
      | nil => rfl
      | cons x l ih =>
        simp only [List.map_cons, List.flatten_cons, List.length_append, List.sum_cons, ih,
          fragmentValues_length]
    simp only [List.length_append, List.length_cons, List.length_nil, hsum]
    omega
  · intro x h0 h1
    obtain ⟨t, len, s⟩ := x
    have h2 : len / 256 % 256 = len / 256 := by
      simp only at h0 h1
      omega
    cases t <;> simp [fragmentValues, statedFragment, h2]
  · intro x h0 h1
    obtain ⟨t, len, s⟩ := x
    cases t <;> simp_all [fragmentValues]

/-- Witness of C12 on `[TEXT(len=10), LONG(scale=-2), DOUBLE]`. -/
theorem calcBlr_layout_witness :
    ([⟨SqlType.SQL_TYPE_TEXT, 10, 0⟩, ⟨SqlType.SQL_TYPE_LONG, 4, -2⟩,
        ⟨SqlType.SQL_TYPE_DOUBLE, 8, 0⟩] : List xSQLVAR).length < 32768
      ∧ (calcBlr [⟨SqlType.SQL_TYPE_TEXT, 10, 0⟩, ⟨SqlType.SQL_TYPE_LONG, 4, -2⟩,
            ⟨SqlType.SQL_TYPE_DOUBLE, 8, 0⟩]).map List.length = some 20 :=
  ⟨by decide,
   (calcBlr_layout [⟨SqlType.SQL_TYPE_TEXT, 10, 0⟩, ⟨SqlType.SQL_TYPE_LONG, 4, -2⟩,
      ⟨SqlType.SQL_TYPE_DOUBLE, 8, 0⟩] (by decide)).2.2.2⟩

/-- C13: for a descriptor of type LONG, SHORT, INT64 or QUAD with scale `s` in
`[-128, 127]`, the second byte of the fragment stored by `calcBlr` is `s` when
`s >= 0` and `s + 256` when `s < 0`, that is `s mod 256`; scale -2 gives 254.
For BLOB and ARRAY the second byte is 0 whatever the scale. -/
theorem calcBlr_scale_byte (sqltype : SqlType) (sqllen s : Int) :
    (sqltype ∈ [SqlType.SQL_TYPE_LONG, SqlType.SQL_TYPE_SHORT, SqlType.SQL_TYPE_INT64,
          SqlType.SQL_TYPE_QUAD] → -128 ≤ s → s ≤ 127 →
        ∃ tag b : Byte, calcBlr [⟨sqltype, sqllen, s⟩]
            = some ([5, 2, 4, 0, 2, 0] ++ [tag, b] ++ [7, 0] ++ [255, 76])
          ∧ (b.val : Int) = (if 0 ≤ s then s else s + 256)
          ∧ (b.val : Int) = s % 256)
      ∧ (sqltype ∈ [SqlType.SQL_TYPE_BLOB, SqlType.SQL_TYPE_ARRAY] →
          calcBlr [⟨sqltype, sqllen, s⟩]
            = some ([5, 2, 4, 0, 2, 0] ++ [9, 0] ++ [7, 0] ++ [255, 76]))
      ∧ calcBlr [⟨SqlType.SQL_TYPE_LONG, sqllen, -2⟩]
          = some ([5, 2, 4, 0, 2, 0] ++ [8, 254] ++ [7, 0] ++ [255, 76]) := by
  have henv : ∀ x : xSQLVAR, calcBlr [x]
      = some ([5, 2, 4, 0, 2, 0] ++ descriptorBytes x ++ [255, 76]) := by
    intro x
    rw [calcBlr_eq]
    have h1 : byte ((((([x] : List xSQLVAR).length * 2 : Nat)) : Int) % 256) = 2 := by
      rw [List.length_singleton]; decide
    have h2 : byte ((((([x] : List xSQLVAR).length * 2 : Nat)) : Int) / 2 ^ 8) = 0 := by
      rw [List.length_singleton]; decide
    rw [h1, h2]
    simp
  refine ⟨?_, ?_, ?_⟩
  · intro ht h0 h1
    have hb : ((byte (if s < 0 then s + 256 else s)).val : Int)
        = (if 0 ≤ s then s else s + 256) := by
      rw [byte_val]
      split_ifs <;> omega
    have hm : ((byte (if s < 0 then s + 256 else s)).val : Int) = s % 256 := by
      rw [byte_val]
      split_ifs <;> omega
    simp only [List.mem_cons, List.mem_singleton, List.not_mem_nil, or_false] at ht
    rcases ht with h | h | h | h <;> subst h
    · exact ⟨8, _, by rw [henv]; simp [descriptorBytes, typeBytes], hb, hm⟩
    · exact ⟨7, _, by rw [henv]; simp [descriptorBytes, typeBytes], hb, hm⟩
    · exact ⟨16, _, by rw [henv]; simp [descriptorBytes, typeBytes], hb, hm⟩
    · exact ⟨9, _, by rw [henv]; simp [descriptorBytes, typeBytes], hb, hm⟩
  · intro ht
    simp only [List.mem_cons, List.mem_singleton, List.not_mem_nil, or_false] at ht
    rcases ht with h | h <;> subst h <;> rw [henv] <;> simp [descriptorBytes, typeBytes]
  · rw [henv]
    have : byte 254 = 254 := by decide
    simp [descriptorBytes, typeBytes, this]

/-- Witness of C13 on an INT64 descriptor of scale -128. -/
theorem calcBlr_scale_byte_witness :
    SqlType.SQL_TYPE_INT64
        ∈ [SqlType.SQL_TYPE_LONG, SqlType.SQL_TYPE_SHORT, SqlType.SQL_TYPE_INT64,
            SqlType.SQL_TYPE_QUAD]
      ∧ (-128 : Int) ≤ -128 ∧ (-128 : Int) ≤ 127
      ∧ ∃ tag b : Byte, calcBlr [⟨SqlType.SQL_TYPE_INT64, 8, -128⟩]
            = some ([5, 2, 4, 0, 2, 0] ++ [tag, b] ++ [7, 0] ++ [255, 76])
          ∧ (b.val : Int) = (if (0 : Int) ≤ -128 then -128 else -128 + 256)
          ∧ (b.val : Int) = -128 % 256 :=
  ⟨by decide, by decide, by decide,
   (calcBlr_scale_byte SqlType.SQL_TYPE_INT64 8 (-128)).1 (by decide) (by decide) (by decide)⟩

/-- C14: `calcBlr` never fails, and a descriptor whose type tag is none of the
recognised constants gets no fragment: only `[7,0]` is stored for it, while
the bytes stored for the descriptors before and after it are those stored
when it is absent. -/
theorem calcBlr_unknown_tag (before after : List xSQLVAR) (u : xSQLVAR)
    (hu : u.sqltype = SqlType.unknown) :
    (∀ xsqlda : List xSQLVAR, (calcBlr xsqlda).isSome = true)
      ∧ (∀ sqlscale : Int, typeBytes u sqlscale = [])
      ∧ ∃ env env1 : List Byte, env.length = 6 ∧ env1.length = 6
          ∧ calcBlr (before ++ after)
            = some (env ++ (before.map descriptorBytes).flatten
                ++ (after.map descriptorBytes).flatten ++ [255, 76])
          ∧ calcBlr (before ++ u :: after)
            = some (env1 ++ (before.map descriptorBytes).flatten ++ [7, 0]
                ++ (after.map descriptorBytes).flatten ++ [255, 76]) := by
  have ht : ∀ sqlscale : Int, typeBytes u sqlscale = [] := by
    intro sqlscale
    simp [typeBytes, hu]
  refine ⟨fun xsqlda => by rw [calcBlr_eq]; rfl, ht,
    [5, 2, 4, 0, byte ((((before ++ after).length * 2 : Nat) : Int) % 256),
      byte ((((before ++ after).length * 2 : Nat) : Int) / 2 ^ 8)],
    [5, 2, 4, 0, byte ((((before ++ u :: after).length * 2 : Nat) : Int) % 256),
      byte ((((before ++ u :: after).length * 2 : Nat) : Int) / 2 ^ 8)],
    rfl, rfl, ?_, ?_⟩
  · rw [calcBlr_eq]
    simp only [List.map_append, List.flatten_append, List.append_assoc]
  · rw [calcBlr_eq]
    simp only [List.map_append, List.map_cons, List.flatten_append, List.flatten_cons,
      descriptorBytes, ht, List.nil_append, List.append_assoc]

/-- Witness of C14 on an unknown descriptor between a TEXT and a DOUBLE one. -/
theorem calcBlr_unknown_tag_witness :
    (⟨SqlType.unknown, 4, 0⟩ : xSQLVAR).sqltype = SqlType.unknown
      ∧ calcBlr [⟨SqlType.SQL_TYPE_TEXT, 10, 0⟩, ⟨SqlType.unknown, 4, 0⟩,
          ⟨SqlType.SQL_TYPE_DOUBLE, 8, 0⟩]
        = some [5, 2, 4, 0, 6, 0, 14, 10, 0, 7, 0, 7, 0, 27, 7, 0, 255, 76]
      ∧ ∀ sqlscale : Int, typeBytes ⟨SqlType.unknown, 4, 0⟩ sqlscale = [] :=
  ⟨rfl, by decide,
   (calcBlr_unknown_tag [⟨SqlType.SQL_TYPE_TEXT, 10, 0⟩] [⟨SqlType.SQL_TYPE_DOUBLE, 8, 0⟩]
      ⟨SqlType.unknown, 4, 0⟩ rfl).2.1⟩

/-- C20: every store of `calcBlr` lies inside the buffer of `8n + 8` bytes
allocated up front (no checked store fails), the write position after `k`
descriptors is at most `5k + 6`, and the final slice bound is at most
`5n + 8`, hence at most `8n + 8`: each descriptor advances the position by at
most 5 bytes. -/
theorem calcBlr_in_bounds (xsqlda : List xSQLVAR) :
    (∀ x : xSQLVAR, (descriptorBytes x).length ≤ 5)
      ∧ (∀ k : Nat, k ≤ xsqlda.length →
          ∃ st : List Byte × Nat,
            (xsqlda.take k).foldlM calcBlrStep
                ([5, 2, 4, 0, byte (((xsqlda.length * 2 : Nat) : Int) % 256),
                    byte (((xsqlda.length * 2 : Nat) : Int) / 2 ^ 8)]
                  ++ List.replicate (8 * xsqlda.length + 2) 0, 6) = some st
              ∧ st.1.length = 8 * xsqlda.length + 8 ∧ st.2 ≤ 5 * k + 6)
      ∧ ∃ (blr : List Byte) (n : Nat), calcBlrRun xsqlda = some (blr, n)
          ∧ blr.length = 8 * xsqlda.length + 8
          ∧ n ≤ 5 * xsqlda.length + 8
          ∧ n ≤ blr.length
          ∧ calcBlr xsqlda = some (blr.take n) := by
  have hb := body_length_le xsqlda
  refine ⟨descriptorBytes_length_le, ?_, ?_⟩
  · intro k hk
    have hbk := body_length_le (xsqlda.take k)
    have hlk : (xsqlda.take k).length = k := by simp [hk]
    rw [hlk] at hbk
    have h := calcBlrLoop_eq (xsqlda.take k)
      [5, 2, 4, 0, byte (((xsqlda.length * 2 : Nat) : Int) % 256),
        byte (((xsqlda.length * 2 : Nat) : Int) / 2 ^ 8)]
      (8 * xsqlda.length + 2) (by rw [hlk]; omega)
    refine ⟨_, h, ?_, ?_⟩
    · simp only [List.length_append, List.length_cons, List.length_nil, List.length_replicate]
      omega
    · simp only [List.length_append, List.length_cons, List.length_nil]
      omega
  · refine ⟨_, _, calcBlrRun_eq xsqlda, ?_, by omega, ?_, ?_⟩
    · simp only [List.length_append, List.length_cons, List.length_nil, List.length_replicate]
      omega
    · simp only [List.length_append, List.length_cons, List.length_nil, List.length_replicate]
      omega
    · rw [calcBlr_eq]
      have hlen : ([5, 2, 4, 0, byte (((xsqlda.length * 2 : Nat) : Int) % 256),
            byte (((xsqlda.length * 2 : Nat) : Int) / 2 ^ 8)]
          ++ (xsqlda.map descriptorBytes).flatten ++ [255, 76]).length
          = 8 + ((xsqlda.map descriptorBytes).flatten).length := by
        simp only [List.length_append, List.length_cons, List.length_nil]
        omega
      rw [List.take_left' hlen]

/-! ## Range checks of `paramsToBlr` -/

theorem flattenCheckedLoop_eq (l : List (List Byte)) :
    ∀ (pre : List Byte) (r : Nat),
      l.foldlM (fun (st : List Byte × Nat) e =>
          (storeBytes st.1 st.2 e).map fun bs => (bs, st.2 + e.length))
        (pre ++ List.replicate ((l.map List.length).sum + r) 0, pre.length)
      = some (pre ++ l.flatten ++ List.replicate r 0, pre.length + (l.map List.length).sum) := by
  induction l with
  | nil => intro pre r; simp
  | cons e l ih =>
    intro pre r
    have hst := storeBytes_zeros e pre (((e :: l).map List.length).sum + r)
      (by simp only [List.map_cons, List.sum_cons]; omega)
    have hr : ((e :: l).map List.length).sum + r - e.length = (l.map List.length).sum + r := by
      simp only [List.map_cons, List.sum_cons]
      omega
    rw [hr] at hst
    rw [List.foldlM_cons]
    simp only [hst, Option.map_some', Option.bind_eq_bind, Option.some_bind]
    have hlen : pre.length + e.length = (pre ++ e).length := by simp
    rw [hlen, ih (pre ++ e) r]
    simp only [List.flatten_cons, List.append_assoc, List.length_append, List.map_cons,
      List.sum_cons, Nat.add_assoc]

theorem flattenBytesChecked_eq (l : List (List Byte)) :
    flattenBytesChecked l = some (flattenBytes l) := by
  have h := flattenCheckedLoop_eq l [] 0
  simp only [List.nil_append, List.length_nil, Nat.add_zero, List.replicate_zero,
    List.append_nil, Nat.zero_add] at h
  simp only [flattenBytesChecked, makeBytes, sumLengths_foldl, Nat.zero_add, h,
    Option.map_some', flattenBytes_eq]

theorem setNullBitsChecked_eq (params : List Value) :
    ∀ (k x : Nat), k ≤ params.length - 1 →
      setNullBitsChecked params k x = some (setNullBits params k x) := by
  intro k
  induction k with
  | zero => intro x _; rfl
  | succ k ih =>
    intro x hk
    have hlt : k + 1 < params.length := by omega
    rw [setNullBitsChecked, setNullBits, List.getElem?_eq_getElem hlt]
    simp only [Option.some.injEq]
    exact ih _ (by omega)

theorem paramsToBlrChecked_eq (P pv : Int) (params : List Value) :
    paramsToBlrChecked P params pv = some (paramsToBlr P params pv) := by
  simp only [paramsToBlrChecked, paramsToBlr, flattenBytesChecked_eq,
    setNullBitsChecked_eq params _ _ (Nat.le_refl _), Option.map_some', Option.some_bind]
  split_ifs <;> simp

/-! ## Bits of the null bitmap -/

theorem setNullBits_testBit (params : List Value) :
    ∀ (k x j : Nat),
      (setNullBits params k x).testBit j
        = (x.testBit j || (decide (1 ≤ j ∧ j ≤ k) && decide (params[j]? = some Value.nil))) := by
  intro k
  induction k with
  | zero =>
    intro x j
    have hd : decide (1 ≤ j ∧ j ≤ 0) = false := decide_eq_false (by omega)
    rw [setNullBits, hd]
    simp
  | succ k ih =>
    intro x j
    rw [setNullBits, ih]
    by_cases hj : j = k + 1
    · subst hj
      by_cases hn : params[k + 1]? = some Value.nil
      · simp [hn, Nat.testBit_shiftLeft]
      · have h1 : ¬ (1 ≤ k + 1 ∧ k + 1 ≤ k) := by omega
        simp [hn, h1]
    · have h1 : (1 ≤ j ∧ j ≤ k + 1) ↔ (1 ≤ j ∧ j ≤ k) := by omega
      by_cases hn : params[k + 1]? = some Value.nil
      · have hb : (1 <<< (k + 1)).testBit j = false := by
          rw [Nat.testBit_shiftLeft]
          by_cases hge : j ≥ k + 1
          · have hpos : j - (k + 1) ≠ 0 := by omega
            have hone : Nat.testBit 1 (j - (k + 1)) = false := by
              cases hc : Nat.testBit 1 (j - (k + 1))
              · rfl
              · exact absurd (Nat.testBit_one_eq_true_iff_self_eq_zero.mp hc) hpos
            simp [hge, hone]
          · simp [hge]
        simp [hn, Nat.testBit_or, hb, h1]
      · simp [hn, h1]

theorem nullBitmap_eq (params : List Value) (h : params ≠ []) :
    nullBitmap params
      = byte ((setNullBits params (params.length - 1) 0 % 256 : Nat) : Int)
          :: List.replicate (bitmapLen params.length - 1) 0 := by
  have hpos : 0 < params.length := List.length_pos.mpr h
  have hb : bitmapLen params.length = (bitmapLen params.length - 1) + 1 := by
    have := bitmapLen_eq params.length
    omega
  rw [nullBitmap, hb, extractBitmap_eq]
  simp

theorem byte_testBit (x j : Nat) (hj : j < 8) :
    (byte ((x % 256 : Nat) : Int)).val.testBit j = x.testBit j := by
  have hv : (byte ((x % 256 : Nat) : Int)).val = x % 2 ^ 8 := by
    simp only [byte]
    omega
  rw [hv, Nat.testBit_mod_two_pow]
  simp [hj]

theorem bitmapBit_nullBitmap (params : List Value) (i : Nat)
    (h : bitmapBit (nullBitmap params) i = true) :
    1 ≤ i ∧ i < 8 ∧ i < params.length ∧ params[i]? = some Value.nil := by
  by_cases hne : params = []
  · subst hne
    simp [bitmapBit, nullBitmap, bitmapLen, extractBitmap] at h
  · rw [nullBitmap_eq params hne] at h
    simp only [bitmapBit] at h
    by_cases hi : i / 8 = 0
    · have hi8 : i < 8 := by omega
      have hmod : i % 8 = i := by omega
      rw [hi, hmod] at h
      simp only [List.getElem?_cons_zero] at h
      rw [byte_testBit _ _ hi8, setNullBits_testBit] at h
      simp only [Nat.zero_testBit, Bool.false_or, Bool.and_eq_true, decide_eq_true_eq] at h
      have hpos : 0 < params.length := List.length_pos.mpr hne
      exact ⟨h.1.1, hi8, by omega, h.2⟩
    · obtain ⟨k, hk⟩ : ∃ k, i / 8 = k + 1 := ⟨i / 8 - 1, by omega⟩
      rw [hk, List.getElem?_cons_succ] at h
      by_cases hlt : k < bitmapLen params.length - 1
      · rw [List.getElem?_replicate_of_lt hlt] at h
        simp at h
      · rw [List.getElem?_eq_none (by simp; omega)] at h
        simp at h

theorem encodeParam_snd_length (p : Value) : 4 ∣ (encodeParam p).2.length := by
  have hstr : ∀ s : List Byte, 4 ∣ (_strToBlr s).2.length := by
    intro s
    have hpad : ((4 - (s.length : Int)) % 4).toNat = (4 - s.length % 4) % 4 := by omega
    have hlen : (_strToBlr s).2.length = s.length + (4 - s.length % 4) % 4 := by
      simp [_strToBlr, str_to_bytes, bytesJoin, makeBytes, hpad]
    rw [hlen]
    omega
  cases p with
  | string f => exact hstr f
  | other rendering => exact hstr rendering
  | time f =>
    by_cases h : f.year = 0
    · simp [encodeParam, h, _timeToBlr, bytesJoin, _convert_time, bint32_to_bytes]
    · simp only [encodeParam, h, if_false, _timestampToBlr, bytesJoin, _convert_time,
        _convert_date, bint32_to_bytes]
      exact ⟨2, rfl⟩
  | bool f => cases f <;> simp [encodeParam]
  | _ => simp [encodeParam, _int32ToBlr, bytesJoin, bint32_to_bytes]

theorem flatten_length_dvd (f : Value → List Byte) (hf : ∀ p, 4 ∣ (f p).length)
    (params : List Value) : 4 ∣ ((params.map f).flatten).length := by
  induction params with
  | nil => simp
  | cons p ps ih =>
    simp only [List.map_cons, List.flatten_cons, List.length_append]
    exact Nat.dvd_add (hf p) ih

/-! ## Totality and the fallback of `paramsToBlr` -/

/-- C15: `paramsToBlr` is total: with every indexed access checked it still
returns its pair of buffers for every parameter list and protocol version.  A
parameter of a kind not listed in the switch is encoded as `_strToBlr` of its
`%v` rendering: fragment `[14, lowByte(n), highByte(n)]` and the bytes of the
rendering padded with zeros to a multiple of 4. -/
theorem paramsToBlr_total (PROTOCOL_VERSION13 protocolVersion : Int) (params : List Value)
    (rendering : List Byte) :
    paramsToBlrChecked PROTOCOL_VERSION13 params protocolVersion
        = some (paramsToBlr PROTOCOL_VERSION13 params protocolVersion)
      ∧ encodeParam (Value.other rendering) = _strToBlr rendering
      ∧ (encodeParam (Value.other rendering)).1
        = [14, ⟨rendering.length % 256, Nat.mod_lt _ (by decide)⟩,
            ⟨rendering.length / 256 % 256, Nat.mod_lt _ (by decide)⟩]
      ∧ (encodeParam (Value.other rendering)).2
        = rendering ++ List.replicate ((4 - rendering.length % 4) % 4) 0
      ∧ (paramsToBlr PROTOCOL_VERSION13 [Value.other rendering] protocolVersion).1
        = [5, 2, 4, 0, 2, 0] ++ (_strToBlr rendering).1 ++ [7, 0] ++ [255, 76] := by
  have hpad : ((4 - (rendering.length : Int)) % 4).toNat = (4 - rendering.length % 4) % 4 := by
    omega
  refine ⟨paramsToBlrChecked_eq _ _ _, rfl, ?_, ?_, ?_⟩
  · simp only [encodeParam, _strToBlr, str_to_bytes, List.cons.injEq, true_and, and_true]
    constructor <;> apply Fin.ext <;> simp only [byte] <;> omega
  · simp [encodeParam, _strToBlr, str_to_bytes, bytesJoin, makeBytes, hpad]
  · rw [paramsToBlr_singleton]
    rfl

/-- C16: for the empty parameter list and every protocol version `paramsToBlr`
returns, with every indexed access checked, the BLR buffer
`[5,2,4,0,0,0,255,76]` and an empty value buffer. -/
theorem paramsToBlr_empty (PROTOCOL_VERSION13 protocolVersion : Int) :
    paramsToBlrChecked PROTOCOL_VERSION13 [] protocolVersion
        = some ([5, 2, 4, 0, 0, 0, 255, 76], [])
      ∧ paramsToBlr PROTOCOL_VERSION13 [] protocolVersion
        = ([5, 2, 4, 0, 0, 0, 255, 76], [])
      ∧ nullBitmap [] = [] := by
  have h : paramsToBlr PROTOCOL_VERSION13 [] protocolVersion
      = ([5, 2, 4, 0, 0, 0, 255, 76], []) := by
    apply Prod.ext
    · rw [paramsToBlr_fst]
      decide
    · by_cases hv : PROTOCOL_VERSION13 ≤ protocolVersion
      · rw [paramsToBlr_snd_ge _ _ _ hv]
        decide
      · rw [paramsToBlr_snd_lt _ _ _ (by omega)]
        rfl
  exact ⟨by rw [paramsToBlrChecked_eq, h], h, by decide⟩

/-! ## Bits of the null bitmap of `paramsToBlr` -/

/-- C17: for a non-empty parameter list at a protocol version of at least
`PROTOCOL_VERSION13`, bit 0 of the first byte of the null bitmap is 0 whether
or not `params[0]` is nil; the list `[nil]` gives the bitmap `00 00 00 00` and
no value bytes, and a nil parameter has no value bytes. -/
theorem paramsToBlr_bitmap_bit0 (PROTOCOL_VERSION13 protocolVersion : Int)
    (params : List Value) (hne : params ≠ []) (hv : PROTOCOL_VERSION13 ≤ protocolVersion) :
    (∃ (b : Byte) (rest : List Byte),
        (paramsToBlr PROTOCOL_VERSION13 params protocolVersion).2 = b :: rest
          ∧ nullBitmap params = b :: (nullBitmap params).tail
          ∧ b.val.testBit 0 = false)
      ∧ bitmapBit (nullBitmap params) 0 = false
      ∧ (paramsToBlr PROTOCOL_VERSION13 [Value.nil] protocolVersion).2 = [0, 0, 0, 0]
      ∧ (encodeParam Value.nil).2 = []
      ∧ (paramsToBlr PROTOCOL_VERSION13 params protocolVersion).2
        = nullBitmap params ++ (params.map fun p => (encodeParam p).2).flatten := by
  have hval := paramsToBlr_snd_ge PROTOCOL_VERSION13 protocolVersion params hv
  have hbm := nullBitmap_eq params hne
  have hbit : (byte ((setNullBits params (params.length - 1) 0 % 256 : Nat) : Int)).val.testBit 0
      = false := by
    rw [byte_testBit _ _ (by omega), setNullBits_testBit]
    simp
  refine ⟨⟨byte ((setNullBits params (params.length - 1) 0 % 256 : Nat) : Int),
      List.replicate (bitmapLen params.length - 1) 0
        ++ (params.map fun p => (encodeParam p).2).flatten, ?_, ?_, hbit⟩, ?_, ?_, rfl, hval⟩
  · rw [hval]
    change nullBitmap params ++ _ = _
    rw [hbm, List.cons_append]
  · rw [hbm]
    rfl
  · cases hc : bitmapBit (nullBitmap params) 0
    · rfl
    · have := (bitmapBit_nullBitmap params 0 hc).1
      omega
  · rw [paramsToBlr_snd_ge _ _ _ hv]
    decide

/-- Witness of C17 on the list `[nil, 7]`. -/
theorem paramsToBlr_bitmap_bit0_witness :
    [Value.nil, Value.int 7] ≠ [] ∧ (13 : Int) ≤ 13
      ∧ bitmapBit (nullBitmap [Value.nil, Value.int 7]) 0 = false
      ∧ (paramsToBlr 13 [Value.nil, Value.int 7] 13).2 = [0, 0, 0, 0, 0, 0, 0, 7] :=
  ⟨by decide, by decide,
   (paramsToBlr_bitmap_bit0 13 13 [Value.nil, Value.int 7] (by decide) (by decide)).2.1,
   by decide⟩

/-- C18: at a protocol version of at least `PROTOCOL_VERSION13` every bit set
in the null bitmap marks a nil parameter: if bit `i mod 8` of bitmap byte
`i div 8` is set then `i < n` and `params[i]` is nil; a bitmap byte that lies
wholly beyond the parameters is zero. -/
theorem paramsToBlr_bitmap_sound (PROTOCOL_VERSION13 protocolVersion : Int)
    (params : List Value) (hv : PROTOCOL_VERSION13 ≤ protocolVersion) :
    (paramsToBlr PROTOCOL_VERSION13 params protocolVersion).2.take (bitmapLen params.length)
        = nullBitmap params
      ∧ (nullBitmap params).length = bitmapLen params.length
      ∧ (∀ i : Nat, bitmapBit (nullBitmap params) i = true →
          i < params.length ∧ params[i]? = some Value.nil)
      ∧ (∀ i : Nat, params.length ≤ i → bitmapBit (nullBitmap params) i = false)
      ∧ (∀ (k : Nat) (b : Byte), params.length ≤ 8 * k →
          (nullBitmap params)[k]? = some b → b = 0) := by
  have hlen : (nullBitmap params).length = bitmapLen params.length :=
    extractBitmap_length _ _
  have hsound : ∀ i : Nat, bitmapBit (nullBitmap params) i = true →
      i < params.length ∧ params[i]? = some Value.nil := by
    intro i hi
    have h := bitmapBit_nullBitmap params i hi
    exact ⟨h.2.2.1, h.2.2.2⟩
  refine ⟨?_, hlen, hsound, ?_, ?_⟩
  · rw [paramsToBlr_snd_ge _ _ _ hv]
    change (nullBitmap params ++ _).take _ = _
    rw [List.take_left' hlen]
  · intro i hi
    cases hc : bitmapBit (nullBitmap params) i
    · rfl
    · have := (hsound i hc).1
      omega
  · intro k b hk hb
    by_cases hne : params = []
    · subst hne
      simp [nullBitmap, bitmapLen, extractBitmap] at hb
    · have hpos : 0 < params.length := List.length_pos.mpr hne
      obtain ⟨j, rfl⟩ : ∃ j, k = j + 1 := ⟨k - 1, by omega⟩
      rw [nullBitmap_eq params hne, List.getElem?_cons_succ] at hb
      rw [List.getElem?_replicate] at hb
      split_ifs at hb
      exact (Option.some.inj hb).symm

/-- Witness of C18 on `[42, nil, "ab"]`, whose bitmap has exactly bit 1 set. -/
theorem paramsToBlr_bitmap_sound_witness :
    (13 : Int) ≤ 13
      ∧ nullBitmap [Value.int 42, Value.nil, Value.string [97, 98]] = [2, 0, 0, 0]
      ∧ ∀ i : Nat,
          bitmapBit (nullBitmap [Value.int 42, Value.nil, Value.string [97, 98]]) i = true →
          i < [Value.int 42, Value.nil, Value.string [97, 98]].length
            ∧ [Value.int 42, Value.nil, Value.string [97, 98]][i]? = some Value.nil :=
  ⟨by decide, by decide,
   (paramsToBlr_bitmap_sound 13 13 [Value.int 42, Value.nil, Value.string [97, 98]]
      (by decide)).2.2.1⟩

/-- C19: for every parameter list and protocol version the length of the value
buffer of `paramsToBlr` is a multiple of 4, because the bitmap, the value
bytes of every parameter and the 4-byte null marker all have lengths divisible
by 4. -/
theorem paramsToBlr_values_aligned (PROTOCOL_VERSION13 protocolVersion : Int)
    (params : List Value) :
    4 ∣ (paramsToBlr PROTOCOL_VERSION13 params protocolVersion).2.length
      ∧ 4 ∣ bitmapLen params.length
      ∧ (∀ p : Value, 4 ∣ (encodeParam p).2.length)
      ∧ (∀ s : List Byte, 4 ∣ (_strToBlr s).2.length) := by
  have hb : 4 ∣ bitmapLen params.length := ⟨_, bitmapLen_eq params.length⟩
  refine ⟨?_, hb, encodeParam_snd_length, fun s => encodeParam_snd_length (Value.string s)⟩
  by_cases hv : PROTOCOL_VERSION13 ≤ protocolVersion
  · rw [paramsToBlr_snd_ge _ _ _ hv, List.length_append, extractBitmap_length]
    exact Nat.dvd_add hb (flatten_length_dvd _ encodeParam_snd_length params)
  · rw [paramsToBlr_snd_lt _ _ _ (by omega)]
    apply flatten_length_dvd
    intro p
    rw [List.length_append]
    apply Nat.dvd_add (encodeParam_snd_length p)
    split_ifs <;> decide

end Firebirdsql
